import Mathlib

/-!
Verification development for `CalcWatercourseLength.py`.

The two analysis routines `calcWaterCourseLength` and
`calcWaterCourseLengthBlockage` are shallowly embedded below.  Coordinates are
rational numbers; the float comparison `math.sqrt(dx^2 + dy^2) <= tolerance`
is embedded as the equivalent rational test `0 ≤ tolerance ∧ dx^2 + dy^2 ≤
tolerance^2` (the equivalence with the square-root form is proved as
`distLE_iff`).  A Python exception (an `IndexError` from indexing an empty
coordinate list, or shapely's rejection of a one-point `LineString`) is
rendered as `none`/`.err`; the unbounded `while` loop is rendered as a fueled
recursion whose fuel provably suffices (`travLoop_no_out`,
`travLoopB_no_out`).  The in-place mutation
`network.loc[network[fid_col] == fid, 'geometry'] = ...` is rendered by
threading the network store through the loop and returning the final store.
CRS normalisation (`to_crs`) is out of scope: inputs are assumed to be in one
planar coordinate system already, as the specification requires of callers.
-/


namespace Watercourse

/-- Feature identifiers (the values of the `fid_col` column). -/
abbrev Fid := Nat

/-- A planar point with rational coordinates. -/
abbrev Point := ℚ × ℚ

/-- A LineString geometry: its ordered coordinate list. -/
abbrev Geom := List Point

/-- The river network: rows of a GeoDataFrame, each a feature id with its
geometry, in row order. -/
abbrev Network := List (Fid × Geom)

/-- Squared Euclidean distance between two points. -/
def sqDist (p q : Point) : ℚ := (p.1 - q.1) ^ 2 + (p.2 - q.2) ^ 2

/-- Embeds the source's test `math.sqrt((x1-x2)**2 + (y1-y2)**2) <= t`:
for any real `t`, `sqrt d ≤ t` iff `0 ≤ t ∧ d ≤ t^2`. -/
def distLE (p q : Point) (t : ℚ) : Bool :=
  decide (0 ≤ t) && decide (sqDist p q ≤ t ^ 2)

/-- The actual Euclidean distance, as a real number. -/
noncomputable def rdist (p q : Point) : ℝ := Real.sqrt (sqDist p q)

/-- The fid column of the network: `list(network[fid_col])`. -/
def fidsOf (net : Network) : List Fid := net.map (fun e => e.1)

/-- Row lookup `network[network[fid_col] == fid].iloc[0]`: the first row whose
fid matches, `none` when there is no such row (pandas `iloc[0]` raises). -/
def lookup (net : Network) (fid : Fid) : Option Geom :=
  (net.find? (fun e => decide (e.1 = fid))).map (fun e => e.2)

/-- `direction`: upstream is the source's `0`, downstream its `1`. -/
inductive Direction where
  | upstream
  | downstream
deriving DecidableEq

/-- The leading coordinate `coords[0 - direction]`: `coords[0]` upstream,
`coords[-1]` downstream.  `none` models the `IndexError` on an empty list. -/
def leadCoord (d : Direction) (g : Geom) : Option Point :=
  match d with
  | .upstream => g.head?
  | .downstream => g.getLast?

/-- The candidate's far coordinate `coords[direction - 1]`: `coords[-1]`
upstream, `coords[0]` downstream. -/
def farCoord (d : Direction) (g : Geom) : Option Point :=
  match d with
  | .upstream => g.getLast?
  | .downstream => g.head?

/-- Modelled from the spec: the parameter interval, along a segment from `a`
to `b` in one axis, on which the moving coordinate stays inside `[lo, hi]`
(slab method; `(1, 0)` encodes the empty interval). -/
def axisInterval (a b lo hi : ℚ) : ℚ × ℚ :=
  let dd := b - a
  if dd = 0 then (if lo ≤ a ∧ a ≤ hi then (0, 1) else (1, 0))
  else if 0 < dd then ((lo - a) / dd, (hi - a) / dd)
  else ((hi - a) / dd, (lo - a) / dd)

/-- Modelled from the spec: whether the closed segment from `a` to `b` meets
the closed axis-aligned square of half-width `t` centred at `c` (the shapely
`intersects` test against the query `Polygon`). -/
def segHitsBox (a b c : Point) (t : ℚ) : Bool :=
  let ix := axisInterval a.1 b.1 (c.1 - t) (c.1 + t)
  let iy := axisInterval a.2 b.2 (c.2 - t) (c.2 + t)
  decide (max 0 (max ix.1 iy.1) ≤ min 1 (min ix.2 iy.2))

/-- Modelled from the spec: the Proximity Index test — a LineString meets the
query box iff one of its constituent segments does.  A geometry with fewer
than two coordinates meets nothing (shapely: an empty geometry intersects
nothing; a one-point LineString cannot exist). -/
def geomIntersectsBox (g : Geom) (c : Point) (t : ℚ) : Bool :=
  (g.zip g.tail).any (fun s => segHitsBox s.1 s.2 c t)

/-- The proximity query `list(network[network.intersects(buffer)][fid_col])`. -/
def potentialFids (net : Network) (c : Point) (t : ℚ) : List Fid :=
  (net.filter (fun e => geomIntersectsBox e.2 c t)).map (fun e => e.1)

/-- Modelled from the spec: squared distance from point `p` to the closed
segment from `a` to `b` (the geometry-provider primitive behind `buffer`). -/
def sqDistPointSeg (p a b : Point) : ℚ :=
  let den := sqDist a b
  if den = 0 then sqDist p a
  else
    let tt := ((p.1 - a.1) * (b.1 - a.1) + (p.2 - a.2) * (b.2 - a.2)) / den
    let tc := max 0 (min 1 tt)
    sqDist p (a.1 + tc * (b.1 - a.1), a.2 + tc * (b.2 - a.2))

/-- Modelled from the spec: the blockage test
`blockage.within(next_feat.buffer(1).unary_union)` — the blockage point lies
strictly within distance 1 of the candidate's polyline (shapely `within`
excludes the boundary; the fixed buffer radius is the source's constant `1`). -/
def withinBuffer1 (p : Point) (g : Geom) : Bool :=
  (g.zip g.tail).any (fun s => decide (sqDistPointSeg p s.1 s.2 < 1))

/-- Python's `min(dists)` over a list of rationalised distances. -/
def listMin : List ℚ → ℚ
  | [] => 0
  | x :: t => t.foldl min x

/-- Python's `dists.index(min(dists))`: the first index attaining the
minimum.  The source takes square roots first, but square root is strictly
monotone on nonnegative rationals, so the first minimum of the squared
distances sits at the same index (see the real-distance facts proved for the
truncation theorem). -/
def minIndex (l : List ℚ) : Nat := l.indexOf (listMin l)

/-- Shapely's `LineString` constructor: accepts an empty coordinate list and
any list of two or more points, raises on a single point
(`point array must contain 0 or >1 elements`). -/
def lineString (ps : List Point) : Option Geom :=
  if ps.length = 1 then none else some ps

/-- The in-place geometry overwrite
`network.loc[network[fid_col] == fid, 'geometry'] = g`. -/
def updateGeom (net : Network) (fid : Fid) (g : Geom) : Network :=
  net.map (fun e => if e.1 = fid then (e.1, g) else e)

/-- The seeding `list(network[network[fid_col] == starting_fid][fid_col])`. -/
def seed (net : Network) (startId : Fid) : List Fid :=
  (net.filter (fun e => decide (e.1 = startId))).map (fun e => e.1)

/-- The inner `for fid in potential_fids` loop of `calcWaterCourseLength`
(lines 59–73): each candidate not yet found is fetched, its far endpoint
compared against the leading coordinate, and on `dist <= tolerance` it is
appended to both `found_vertex` and `possible_vertex`.  `none` models a raised
exception. -/
def scanCandidates (net : Network) (d : Direction) (tol : ℚ) (cur : Point) :
    List Fid → List Fid → List Fid → Option (List Fid × List Fid)
  | [], found, possible => some (found, possible)
  | fid :: rest, found, possible =>
    if fid ∈ found then
      scanCandidates net d tol cur rest found possible
    else
      match lookup net fid with
      | none => none
      | some g =>
        match farCoord d g with
        | none => none
        | some e =>
          if distLE cur e tol then
            scanCandidates net d tol cur rest (found ++ [fid]) (possible ++ [fid])
          else
            scanCandidates net d tol cur rest found possible

/-- Outcome of one whole `while possible_vertex:` run of the plain variant. -/
inductive TravOutP where
  | ok (found : List Fid)
  | err
  | out
deriving DecidableEq

/-- The `while possible_vertex:` loop of `calcWaterCourseLength` (lines
39–73), as a fueled recursion: pop the queue head, take its leading
coordinate, query the proximity index, scan the candidates, repeat.  `.err`
models a Python exception, `.out` exhausted fuel (never reached for the fuel
used by `calcWaterCourseLength`; see `travLoop_no_out`). -/
def travLoop (d : Direction) (tol : ℚ) (net : Network) :
    Nat → List Fid → List Fid → TravOutP
  | 0, _, _ => .out
  | _ + 1, found, [] => .ok found
  | fuel + 1, found, fid :: rest =>
    match lookup net fid with
    | none => .err
    | some g =>
      match leadCoord d g with
      | none => .err
      | some cur =>
        match scanCandidates net d tol cur (potentialFids net cur tol) found rest with
        | none => .err
        | some (found1, possible1) => travLoop d tol net fuel found1 possible1

/-- `calcWaterCourseLength` (lines 21–76): seed the queue and the found set
with the rows matching `starting_fid`, run the loop, and return
`network[network[fid_col].isin(found_vertex)]`.  `none` models an exception
escaping the call. -/
def calcWaterCourseLength (net : Network) (startId : Fid) (d : Direction) (tol : ℚ) :
    Option (List (Fid × Geom)) :=
  match travLoop d tol net (2 * net.length + 1) (seed net startId) (seed net startId) with
  | .ok found => some (net.filter (fun e => decide (e.1 ∈ found)))
  | _ => none

/-- The inner candidate loop of `calcWaterCourseLengthBlockage` (lines
120–148).  A connected candidate with no blockage strictly inside the 1-unit
buffer of its geometry is accepted exactly as in the plain variant; otherwise
the first qualifying blockage row is taken, the squared distance from each of
the candidate's coordinates to it is computed, the stored geometry is
overwritten with `coords[:dists.index(min(dists))]`, and the candidate is
appended to `found_vertex` only. -/
def scanCandidatesB (blk : List Point) (d : Direction) (tol : ℚ) (cur : Point) :
    List Fid → Network → List Fid → List Fid →
    Option (Network × List Fid × List Fid)
  | [], net, found, possible => some (net, found, possible)
  | fid :: rest, net, found, possible =>
    if fid ∈ found then
      scanCandidatesB blk d tol cur rest net found possible
    else
      match lookup net fid with
      | none => none
      | some g =>
        match farCoord d g with
        | none => none
        | some e =>
          if distLE cur e tol then
            match blk.filter (fun b => withinBuffer1 b g) with
            | [] =>
              scanCandidatesB blk d tol cur rest net (found ++ [fid]) (possible ++ [fid])
            | b :: _ =>
              match lineString (g.take (minIndex (g.map (fun v => sqDist v b)))) with
              | none => none
              | some g1 =>
                scanCandidatesB blk d tol cur rest (updateGeom net fid g1) (found ++ [fid]) possible
          else
            scanCandidatesB blk d tol cur rest net found possible

/-- Outcome of one whole run of the blockage-aware loop: the final network
store together with the found list. -/
inductive TravOutB where
  | ok (net : Network) (found : List Fid)
  | err
  | out
deriving DecidableEq

/-- The `while possible_vertex:` loop of `calcWaterCourseLengthBlockage`
(lines 100–148), threading the mutable network store. -/
def travLoopB (blk : List Point) (d : Direction) (tol : ℚ) :
    Nat → Network → List Fid → List Fid → TravOutB
  | 0, _, _, _ => .out
  | _ + 1, net, found, [] => .ok net found
  | fuel + 1, net, found, fid :: rest =>
    match lookup net fid with
    | none => .err
    | some g =>
      match leadCoord d g with
      | none => .err
      | some cur =>
        match scanCandidatesB blk d tol cur (potentialFids net cur tol) net found rest with
        | none => .err
        | some (net1, found1, possible1) => travLoopB blk d tol fuel net1 found1 possible1

/-- `calcWaterCourseLengthBlockage` (lines 79–151).  The first component of
the result is the final network store (the caller's network object after the
in-place truncations); the second is the returned selection. -/
def calcWaterCourseLengthBlockage (net : Network) (blk : List Point) (startId : Fid)
    (d : Direction) (tol : ℚ) : Option (Network × List (Fid × Geom)) :=
  match travLoopB blk d tol (2 * net.length + 1) net (seed net startId) (seed net startId) with
  | .ok net1 found => some (net1, net1.filter (fun e => decide (e.1 ∈ found)))
  | _ => none

/-- Shapely polyline length: the sum of consecutive-vertex Euclidean
distances; zero for a geometry with fewer than two coordinates. -/
noncomputable def polyLength (g : Geom) : ℝ :=
  ((g.zip g.tail).map (fun s => rdist s.1 s.2)).sum

/-- `sum(selected.geometry.length)`. -/
noncomputable def totalLength (sel : List (Fid × Geom)) : ℝ :=
  (sel.map (fun e => polyLength e.2)).sum

/-- Termination measure of the worklist loop: queue length plus the number of
network fids not yet found.  Each loop iteration decreases it by exactly one. -/
def travMeasure (net : Network) (found possible : List Fid) : Nat :=
  possible.length + ((fidsOf net).toFinset \ found.toFinset).card

/-- The connected-candidate predicate over the original network: `y`'s
geometry meets the query box around `x`'s leading coordinate and `y`'s far
endpoint lies within `tolerance` of it. -/
def Neighbor (net : Network) (d : Direction) (tol : ℚ) (x y : Fid) : Prop :=
  ∃ gx cur gy ey,
    lookup net x = some gx ∧ leadCoord d gx = some cur ∧
    lookup net y = some gy ∧ geomIntersectsBox gy cur tol = true ∧
    farCoord d gy = some ey ∧ distLE cur ey tol = true

/-- A fid is affected by a blockage: some blockage point lies strictly inside
the 1-unit buffer of its stored geometry in the original network. -/
def Blocked (net : Network) (blk : List Point) (f : Fid) : Prop :=
  ∃ g, lookup net f = some g ∧ blk.filter (fun b => withinBuffer1 b g) ≠ []

/-- Fids the blockage-aware traversal may explore (dequeue): the seeds, and
unblocked connected candidates of explored fids. -/
inductive Explored (net : Network) (blk : List Point) (d : Direction) (tol : ℚ)
    (base : List Fid) : Fid → Prop where
  | start {f : Fid} : f ∈ base → Explored net blk d tol base f
  | push {x y : Fid} : Explored net blk d tol base x → Neighbor net d tol x y →
      ¬ Blocked net blk y → Explored net blk d tol base y

/-- Fids the blockage-aware traversal may select: explored fids, and blocked
connected candidates of explored fids (at which exploration stops). -/
inductive SelGrowth (net : Network) (blk : List Point) (d : Direction) (tol : ℚ)
    (base : List Fid) : Fid → Prop where
  | ofExplored {f : Fid} : Explored net blk d tol base f → SelGrowth net blk d tol base f
  | stopped {x y : Fid} : Explored net blk d tol base x → Neighbor net d tol x y →
      SelGrowth net blk d tol base y

/-- The blockage-branch effect on the store: the stored geometry of `f` in
`net1` is the prefix of its original coordinate list strictly before the
first index of minimum distance to the first qualifying blockage point. -/
def TruncState (net : Network) (blk : List Point) (net1 : Network) (f : Fid) : Prop :=
  ∃ g b bs,
    lookup net f = some g ∧
    blk.filter (fun p => withinBuffer1 p g) = b :: bs ∧
    lookup net1 f = some (g.take (minIndex (g.map (fun v => sqDist v b))))

/-- Invariant of the blockage-aware loop, relating the running state to the
original network `net₀` and the seed list `base`. -/
structure InvB (net₀ : Network) (blk : List Point) (d : Direction) (tol : ℚ)
    (base : List Fid) (net : Network) (found possible : List Fid) : Prop where
  sub : ∀ f ∈ possible, f ∈ found
  nd : found.Nodup
  baseSub : ∀ f ∈ base, f ∈ found
  fidsEq : fidsOf net = fidsOf net₀
  posFids : ∀ f ∈ possible, f ∈ fidsOf net₀
  agreeOut : ∀ f, f ∉ found → lookup net f = lookup net₀ f
  agreePos : ∀ f ∈ possible, lookup net f = lookup net₀ f
  baseKeep : ∀ f ∈ base, lookup net f = lookup net₀ f
  selAll : ∀ f ∈ found, SelGrowth net₀ blk d tol base f
  expPos : ∀ f ∈ possible, Explored net₀ blk d tol base f
  geomSt : ∀ f ∈ found, f ∈ base ∨
    (¬ Blocked net₀ blk f ∧ lookup net f = lookup net₀ f) ∨ TruncState net₀ blk net f

/-- `k` is the first index of a minimal entry of `l`. -/
def IsFirstMinIdx (l : List ℚ) (k : Nat) : Prop :=
  ∃ hk : k < l.length,
    (∀ i, ∀ hi : i < l.length, l.get ⟨k, hk⟩ ≤ l.get ⟨i, hi⟩) ∧
    (∀ i, ∀ hi : i < k, l.get ⟨k, hk⟩ < l.get ⟨i, hi.trans hk⟩)



lemma sqDist_nonneg (p q : Point) : 0 ≤ sqDist p q :=
  add_nonneg (sq_nonneg _) (sq_nonneg _)

/-- The boolean test of the source is exactly the real comparison
`sqrt ((x1-x2)^2 + (y1-y2)^2) ≤ tolerance`. -/
lemma distLE_iff (p q : Point) (t : ℚ) :
    distLE p q t = true ↔ rdist p q ≤ (t : ℝ) := by
  unfold distLE rdist
  rw [Bool.and_eq_true, decide_eq_true_iff, decide_eq_true_iff]
  constructor
  · rintro ⟨h0, h1⟩
    have hcast : ((sqDist p q : ℚ) : ℝ) ≤ ((t : ℝ)) ^ 2 := by
      have := (Rat.cast_le (K := ℝ)).2 h1
      push_cast at this
      linarith
    calc Real.sqrt (sqDist p q) ≤ Real.sqrt ((t : ℝ) ^ 2) := Real.sqrt_le_sqrt hcast
      _ = (t : ℝ) := by
          rw [Real.sqrt_sq (by exact_mod_cast h0)]
  · intro h
    have hsq : (0 : ℝ) ≤ Real.sqrt (sqDist p q) := Real.sqrt_nonneg _
    have ht : (0 : ℝ) ≤ (t : ℝ) := le_trans hsq h
    have h0 : 0 ≤ t := by exact_mod_cast ht
    refine ⟨h0, ?_⟩
    have hnn : (0 : ℝ) ≤ ((sqDist p q : ℚ) : ℝ) := by
      exact_mod_cast sqDist_nonneg p q
    have hs : ((sqDist p q : ℚ) : ℝ) ≤ (t : ℝ) ^ 2 := by
      have := pow_le_pow_left hsq h 2
      rwa [Real.sq_sqrt hnn] at this
    have : ((sqDist p q : ℚ) : ℝ) ≤ (((t ^ 2 : ℚ)) : ℝ) := by push_cast; linarith
    exact_mod_cast this

lemma foldl_min_le_init : ∀ (t : List ℚ) (x : ℚ), t.foldl min x ≤ x := by
  intro t
  induction t with
  | nil => intro x; simp
  | cons y t ih =>
    intro x
    simp only [List.foldl_cons]
    exact le_trans (ih (min x y)) (min_le_left _ _)

lemma foldl_min_le_mem : ∀ (t : List ℚ) (x y : ℚ), y ∈ t → t.foldl min x ≤ y := by
  intro t
  induction t with
  | nil => intro x y h; simp at h
  | cons z t ih =>
    intro x y h
    rcases List.mem_cons.1 h with h | h
    · subst h
      exact le_trans (foldl_min_le_init t (min x y)) (min_le_right _ _)
    · exact ih (min x z) y h

lemma foldl_min_choice : ∀ (t : List ℚ) (x : ℚ), t.foldl min x = x ∨ t.foldl min x ∈ t := by
  intro t
  induction t with
  | nil => intro x; left; rfl
  | cons y t ih =>
    intro x
    rcases ih (min x y) with h | h
    · simp only [List.foldl_cons, h]
      rcases min_choice x y with h1 | h1
      · left; exact h1
      · right; rw [h1]; exact List.mem_cons_self _ _
    · right
      simp only [List.foldl_cons]
      exact List.mem_cons_of_mem _ h

lemma listMin_le {l : List ℚ} {x : ℚ} (h : x ∈ l) : listMin l ≤ x := by
  cases l with
  | nil => simp at h
  | cons y t =>
    rcases List.mem_cons.1 h with h | h
    · subst h; exact foldl_min_le_init t x
    · exact foldl_min_le_mem t y x h

lemma listMin_mem {l : List ℚ} (h : l ≠ []) : listMin l ∈ l := by
  cases l with
  | nil => exact absurd rfl h
  | cons y t =>
    rcases foldl_min_choice t y with h1 | h1
    · rw [listMin, h1]; exact List.mem_cons_self _ _
    · exact List.mem_cons_of_mem _ h1

lemma get_ne_of_lt_indexOf {l : List ℚ} {a : ℚ} :
    ∀ i (hi : i < l.indexOf a) (hl : i < l.length), l.get ⟨i, hl⟩ ≠ a := by
  induction l with
  | nil => intro i hi hl; simp at hl
  | cons x t ih =>
    intro i hi hl
    by_cases hx : x = a
    · rw [List.indexOf_cons_eq t hx] at hi; omega
    · rw [List.indexOf_cons_ne t hx] at hi
      cases i with
      | zero => simpa using hx
      | succ j =>
        have := ih j (Nat.lt_of_succ_lt_succ hi) (by simpa using Nat.lt_of_succ_lt_succ hl)
        simpa using this

lemma minIndex_spec {l : List ℚ} (h : l ≠ []) : IsFirstMinIdx l (minIndex l) := by
  have hmem : listMin l ∈ l := listMin_mem h
  have hk : minIndex l < l.length := List.indexOf_lt_length.2 hmem
  have hget : l.get ⟨minIndex l, hk⟩ = listMin l := by
    simpa [minIndex] using List.getElem_indexOf hk
  refine ⟨hk, ?_, ?_⟩
  · intro i hi
    rw [hget]
    exact listMin_le (l.get_mem i hi)
  · intro i hi
    rw [hget]
    have hne := get_ne_of_lt_indexOf i hi (hi.trans hk)
    exact lt_of_le_of_ne (listMin_le (l.get_mem i (hi.trans hk))) (Ne.symm hne)

lemma mem_fids_of_lookup {net : Network} {f : Fid} {g : Geom}
    (h : lookup net f = some g) : f ∈ fidsOf net := by
  unfold lookup at h
  rcases Option.map_eq_some'.1 h with ⟨e, he, hg⟩
  have hm := List.mem_of_find?_eq_some he
  have hp := List.find?_some he
  simp only [decide_eq_true_eq] at hp
  subst hp
  exact List.mem_map.2 ⟨e, hm, rfl⟩

lemma lookup_isSome_of_mem {net : Network} {f : Fid}
    (h : f ∈ fidsOf net) : ∃ g, lookup net f = some g := by
  rcases List.mem_map.1 h with ⟨e, he, hf⟩
  have : (net.find? (fun e => decide (e.1 = f))).isSome := by
    rw [List.find?_isSome]
    exact ⟨e, he, by simp [hf]⟩
  rcases Option.isSome_iff_exists.1 this with ⟨e1, he1⟩
  exact ⟨e1.2, by simp [lookup, he1]⟩

lemma row_of_lookup {net : Network} {f : Fid} {g : Geom}
    (h : lookup net f = some g) : (f, g) ∈ net := by
  unfold lookup at h
  rcases Option.map_eq_some'.1 h with ⟨e, he, hg⟩
  have hm := List.mem_of_find?_eq_some he
  have hp := List.find?_some he
  simp only [decide_eq_true_eq] at hp
  have : e = (f, g) := by
    rcases e with ⟨a, b⟩
    simp only at hp hg
    simp [hp, hg]
  rwa [this] at hm

lemma lookup_cons_self {e : Fid × Geom} {t : Network} {f : Fid} (h : e.1 = f) :
    lookup (e :: t) f = some e.2 := by
  simp only [lookup]
  rw [List.find?_cons_of_pos _ (by simpa using h)]
  rfl

lemma lookup_cons_ne {e : Fid × Geom} {t : Network} {f : Fid} (h : e.1 ≠ f) :
    lookup (e :: t) f = lookup t f := by
  simp only [lookup]
  rw [List.find?_cons_of_neg _ (by simpa using h)]

lemma lookup_of_row_nodup {net : Network} {f : Fid} {g : Geom}
    (hN : (fidsOf net).Nodup) (h : (f, g) ∈ net) : lookup net f = some g := by
  induction net with
  | nil => simp at h
  | cons e t ih =>
    rcases List.mem_cons.1 h with h1 | h1
    · rw [lookup_cons_self (by rw [← h1])]
      rw [← h1]
    · have hfid : f ∈ fidsOf t := List.mem_map.2 ⟨(f, g), h1, rfl⟩
      have hhead : e.1 ∉ fidsOf t ∧ (fidsOf t).Nodup := by
        simpa [fidsOf] using hN
      have hne : e.1 ≠ f := fun hEq => hhead.1 (hEq ▸ hfid)
      rw [lookup_cons_ne hne]
      exact ih hhead.2 h1

lemma fidsOf_updateGeom (net : Network) (fid : Fid) (g : Geom) :
    fidsOf (updateGeom net fid g) = fidsOf net := by
  induction net with
  | nil => rfl
  | cons e t ih =>
    simp only [updateGeom, fidsOf, List.map_cons] at *
    by_cases h : e.1 = fid
    · simp [h, ih]
    · simp [h, ih]

lemma lookup_updateGeom_ne {net : Network} {fid f : Fid} (g : Geom) (h : f ≠ fid) :
    lookup (updateGeom net fid g) f = lookup net f := by
  induction net with
  | nil => rfl
  | cons e t ih =>
    simp only [updateGeom, List.map_cons]
    by_cases he : e.1 = fid
    · rw [if_pos he]
      have hne : f ≠ e.1 := fun hEq => h (hEq ▸ he)
      rw [lookup_cons_ne (by simpa using hne.symm), lookup_cons_ne (Ne.symm hne)]
      exact ih
    · rw [if_neg he]
      by_cases hf : e.1 = f
      · rw [lookup_cons_self hf, lookup_cons_self hf]
      · rw [lookup_cons_ne hf, lookup_cons_ne hf]
        exact ih

lemma lookup_updateGeom_self {net : Network} {fid : Fid} {g0 : Geom} (g : Geom)
    (h : lookup net fid = some g0) :
    lookup (updateGeom net fid g) fid = some g := by
  induction net with
  | nil => simp [lookup] at h
  | cons e t ih =>
    by_cases he : e.1 = fid
    · simp only [updateGeom, List.map_cons, if_pos he]
      exact lookup_cons_self he
    · rw [lookup_cons_ne he] at h
      simp only [updateGeom, List.map_cons, if_neg he]
      rw [lookup_cons_ne he]
      exact ih h

lemma mem_seed {net : Network} {s f : Fid} (h : f ∈ seed net s) :
    f = s ∧ f ∈ fidsOf net := by
  simp only [seed, List.mem_map, List.mem_filter, decide_eq_true_eq] at h
  rcases h with ⟨e, ⟨he, hs⟩, hf⟩
  exact ⟨hf ▸ hs, List.mem_map.2 ⟨e, he, hf⟩⟩

lemma seed_eq_nil {net : Network} {s : Fid} (h : s ∉ fidsOf net) :
    seed net s = [] := by
  simp only [seed, List.map_eq_nil_iff, List.filter_eq_nil_iff, decide_eq_true_eq]
  intro e he hs
  exact h (List.mem_map.2 ⟨e, he, hs⟩)

lemma seed_sublist_fids (net : Network) (s : Fid) : (seed net s).Sublist (fidsOf net) := by
  unfold seed fidsOf
  exact (List.filter_sublist net).map _

lemma seed_nodup {net : Network} (hN : (fidsOf net).Nodup) (s : Fid) :
    (seed net s).Nodup :=
  hN.sublist (seed_sublist_fids net s)

lemma seed_length_le (net : Network) (s : Fid) : (seed net s).length ≤ net.length := by
  simpa [seed] using List.length_filter_le (fun e => decide (e.1 = s)) net

lemma mem_seed_self {net : Network} {s : Fid} (h : s ∈ fidsOf net) :
    s ∈ seed net s := by
  rcases List.mem_map.1 h with ⟨e, he, hf⟩
  exact List.mem_map.2 ⟨e, List.mem_filter.2 ⟨he, by simp [hf]⟩, hf⟩

lemma eq_single_of_nodup {l : List Fid} {s : Fid} (hnd : l.Nodup) (hmem : s ∈ l)
    (hall : ∀ f ∈ l, f = s) : l = [s] := by
  cases l with
  | nil => simp at hmem
  | cons x t =>
    have hx : x = s := hall x (List.mem_cons_self x t)
    cases t with
    | nil => rw [hx]
    | cons y t1 =>
      have hy : y = s := hall y (by simp)
      rw [List.nodup_cons] at hnd
      exact absurd (by rw [hx, ← hy]; exact List.mem_cons_self y t1 : x ∈ y :: t1) hnd.1

lemma seed_eq_single {net : Network} {s : Fid} (hN : (fidsOf net).Nodup)
    (h : s ∈ fidsOf net) : seed net s = [s] :=
  eq_single_of_nodup (seed_nodup hN s) (mem_seed_self h) (fun _ hf => (mem_seed hf).1)

lemma mem_potentialFids_of_lookup {net : Network} {f : Fid} {g : Geom} {c : Point} {t : ℚ}
    (hl : lookup net f = some g) (hbox : geomIntersectsBox g c t = true) :
    f ∈ potentialFids net c t := by
  have hrow := row_of_lookup hl
  exact List.mem_map.2 ⟨(f, g), List.mem_filter.2 ⟨hrow, hbox⟩, rfl⟩

lemma lookup_of_mem_potentialFids {net : Network} {f : Fid} {c : Point} {t : ℚ}
    (hN : (fidsOf net).Nodup) (h : f ∈ potentialFids net c t) :
    ∃ g, lookup net f = some g ∧ geomIntersectsBox g c t = true := by
  simp only [potentialFids, List.mem_map, List.mem_filter] at h
  rcases h with ⟨e, ⟨he, hbox⟩, hf⟩
  refine ⟨e.2, ?_, hbox⟩
  have : (f, e.2) ∈ net := by
    rcases e with ⟨a, b⟩
    simpa [← hf] using he
  exact lookup_of_row_nodup hN this

lemma two_le_length_of_box {g : Geom} {c : Point} {t : ℚ}
    (h : geomIntersectsBox g c t = true) : 2 ≤ g.length := by
  rcases g with _ | ⟨p, _ | ⟨q, r⟩⟩
  · simp [geomIntersectsBox] at h
  · simp [geomIntersectsBox] at h
  · simp

lemma two_le_length_of_withinBuffer {b : Point} {g : Geom}
    (h : withinBuffer1 b g = true) : 2 ≤ g.length := by
  rcases g with _ | ⟨p, _ | ⟨q, r⟩⟩
  · simp [withinBuffer1] at h
  · simp [withinBuffer1] at h
  · simp

lemma farCoord_isSome {d : Direction} {g : Geom} (h : g ≠ []) :
    ∃ e, farCoord d g = some e := by
  cases d
  · exact ⟨g.getLast h, by simp [farCoord, List.getLast?_eq_getLast _ h]⟩
  · rcases g with _ | ⟨p, t⟩
    · exact absurd rfl h
    · exact ⟨p, rfl⟩

lemma leadCoord_isSome {d : Direction} {g : Geom} (h : g ≠ []) :
    ∃ c, leadCoord d g = some c := by
  cases d
  · rcases g with _ | ⟨p, t⟩
    · exact absurd rfl h
    · exact ⟨p, rfl⟩
  · exact ⟨g.getLast h, by simp [leadCoord, List.getLast?_eq_getLast _ h]⟩

lemma potentialFids_subset_fids {net : Network} {c : Point} {t : ℚ} {f : Fid}
    (h : f ∈ potentialFids net c t) : f ∈ fidsOf net := by
  simp only [potentialFids, List.mem_map, List.mem_filter] at h
  rcases h with ⟨e, ⟨he, _⟩, hf⟩
  exact List.mem_map.2 ⟨e, he, hf⟩

lemma mem_selection_iff {net : Network} {found : List Fid} {f : Fid} :
    f ∈ (net.filter (fun e => decide (e.1 ∈ found))).map (fun e => e.1) ↔
      f ∈ fidsOf net ∧ f ∈ found := by
  constructor
  · intro h
    simp only [List.mem_map, List.mem_filter, decide_eq_true_eq] at h
    rcases h with ⟨e, ⟨he, hm⟩, hf⟩
    exact ⟨List.mem_map.2 ⟨e, he, hf⟩, hf ▸ hm⟩
  · rintro ⟨h1, h2⟩
    rcases List.mem_map.1 h1 with ⟨e, he, hf⟩
    exact List.mem_map.2 ⟨e, List.mem_filter.2 ⟨he, by simp [hf, h2]⟩, hf⟩

lemma row_mem_selection {net : Network} {found : List Fid} {f : Fid} {g : Geom}
    (hl : lookup net f = some g) (hm : f ∈ found) :
    (f, g) ∈ net.filter (fun e => decide (e.1 ∈ found)) :=
  List.mem_filter.2 ⟨row_of_lookup hl, by simp [hm]⟩

lemma polyLength_short {g : Geom} (h : g.length < 2) : polyLength g = 0 := by
  rcases g with _ | ⟨p, _ | ⟨q, r⟩⟩
  · simp [polyLength]
  · simp [polyLength]
  · simp only [List.length_cons] at h
    omega


lemma ne_nil_of_farCoord {d : Direction} {g : Geom} {e : Point}
    (h : farCoord d g = some e) : g ≠ [] := by
  intro hg
  subst hg
  cases d <;> simp [farCoord] at h

/-- Structure of one inner candidate loop of the plain variant: the found and
queue lists are extended by one common list of fresh accepted candidates. -/
lemma scanCandidates_struct (net : Network) (d : Direction) (tol : ℚ) (cur : Point) :
    ∀ (cands found possible found1 possible1 : List Fid),
    scanCandidates net d tol cur cands found possible = some (found1, possible1) →
    ∃ L, found1 = found ++ L ∧ possible1 = possible ++ L ∧ L.Nodup ∧
      (∀ y ∈ L, y ∉ found ∧ y ∈ cands ∧ y ∈ fidsOf net ∧
        ∃ g e, lookup net y = some g ∧ farCoord d g = some e ∧ distLE cur e tol = true) := by
  intro cands
  induction cands with
  | nil =>
    intro found possible found1 possible1 h
    rw [scanCandidates] at h
    injection h with h
    injection h with h1 h2
    exact ⟨[], by simp [← h1], by simp [← h2], List.nodup_nil, by simp⟩
  | cons fid rest ih =>
    intro found possible found1 possible1 h
    rw [scanCandidates] at h
    by_cases hmem : fid ∈ found
    · rw [if_pos hmem] at h
      rcases ih found possible found1 possible1 h with ⟨L, h1, h2, h3, h4⟩
      exact ⟨L, h1, h2, h3, fun y hy =>
        ⟨(h4 y hy).1, List.mem_cons_of_mem _ (h4 y hy).2.1, (h4 y hy).2.2⟩⟩
    · rw [if_neg hmem] at h
      cases hl : lookup net fid with
      | none => rw [hl] at h; simp at h
      | some g =>
        rw [hl] at h
        dsimp only at h
        cases hf : farCoord d g with
        | none => rw [hf] at h; simp at h
        | some e =>
          rw [hf] at h
          dsimp only at h
          by_cases hd : distLE cur e tol = true
          · rw [if_pos hd] at h
            rcases ih (found ++ [fid]) (possible ++ [fid]) found1 possible1 h with
              ⟨L1, h1, h2, h3, h4⟩
            refine ⟨fid :: L1, by simpa [List.append_assoc] using h1,
              by simpa [List.append_assoc] using h2, ?_, ?_⟩
            · rw [List.nodup_cons]
              refine ⟨fun hc => ?_, h3⟩
              have := (h4 fid hc).1
              simp at this
            · intro y hy
              rcases List.mem_cons.1 hy with hy | hy
              · subst hy
                exact ⟨hmem, List.mem_cons_self _ _, mem_fids_of_lookup hl, g, e, hl, hf, hd⟩
              · have h5 := h4 y hy
                refine ⟨fun hc => h5.1 (by simp [hc]), List.mem_cons_of_mem _ h5.2.1, h5.2.2⟩
          · rw [if_neg hd] at h
            rcases ih found possible found1 possible1 h with ⟨L, h1, h2, h3, h4⟩
            exact ⟨L, h1, h2, h3, fun y hy =>
              ⟨(h4 y hy).1, List.mem_cons_of_mem _ (h4 y hy).2.1, (h4 y hy).2.2⟩⟩

lemma scanCandidates_ne_none (net : Network) (d : Direction) (tol : ℚ) (cur : Point) :
    ∀ (cands found possible : List Fid),
    (∀ y ∈ cands, y ∉ found → ∃ g, lookup net y = some g ∧ g ≠ []) →
    scanCandidates net d tol cur cands found possible ≠ none := by
  intro cands
  induction cands with
  | nil => intro found possible _; rw [scanCandidates]; simp
  | cons fid rest ih =>
    intro found possible hc
    rw [scanCandidates]
    by_cases hmem : fid ∈ found
    · rw [if_pos hmem]
      exact ih found possible (fun y hy => hc y (List.mem_cons_of_mem _ hy))
    · rw [if_neg hmem]
      rcases hc fid (List.mem_cons_self _ _) hmem with ⟨g, hl, hg⟩
      rw [hl]
      dsimp only
      rcases farCoord_isSome (d := d) hg with ⟨e, hf⟩
      rw [hf]
      dsimp only
      by_cases hd : distLE cur e tol = true
      · rw [if_pos hd]
        exact ih _ _ (fun y hy hyn => hc y (List.mem_cons_of_mem _ hy)
          (fun hyf => hyn (by simp [hyf])))
      · rw [if_neg hd]
        exact ih _ _ (fun y hy => hc y (List.mem_cons_of_mem _ hy))

lemma card_step {net : Network} {found L : List Fid}
    (hnd : L.Nodup) (hL : ∀ y ∈ L, y ∉ found ∧ y ∈ fidsOf net) :
    ((fidsOf net).toFinset \ (found ++ L).toFinset).card + L.length =
      ((fidsOf net).toFinset \ found.toFinset).card := by
  have hsub : L.toFinset ⊆ (fidsOf net).toFinset \ found.toFinset := by
    intro y hy
    rw [List.mem_toFinset] at hy
    rw [Finset.mem_sdiff, List.mem_toFinset, List.mem_toFinset]
    exact ⟨(hL y hy).2, (hL y hy).1⟩
  have hdist : (fidsOf net).toFinset \ (found ++ L).toFinset =
      ((fidsOf net).toFinset \ found.toFinset) \ L.toFinset := by
    rw [List.toFinset_append, sdiff_sdiff]
    rw [Finset.sup_eq_union]
  have hcard : L.toFinset.card = L.length := by
    rw [List.card_toFinset, hnd.dedup]
  rw [hdist, Finset.card_sdiff hsub, hcard]
  have hle := Finset.card_le_card hsub
  rw [hcard] at hle
  omega

/-- The fueled plain loop never exhausts fuel exceeding the measure. -/
lemma travLoop_no_out (net : Network) (d : Direction) (tol : ℚ) :
    ∀ (fuel : Nat) (found possible : List Fid),
    travMeasure net found possible < fuel →
    travLoop d tol net fuel found possible ≠ .out := by
  intro fuel
  induction fuel with
  | zero => intro found possible h; omega
  | succ n ih =>
    intro found possible h
    cases possible with
    | nil => rw [travLoop]; simp
    | cons fid rest =>
      rw [travLoop]
      cases hl : lookup net fid with
      | none => simp
      | some g =>
        dsimp only
        cases hc : leadCoord d g with
        | none => simp
        | some cur =>
          dsimp only
          cases hs : scanCandidates net d tol cur (potentialFids net cur tol) found rest with
          | none => simp
          | some r =>
            rcases r with ⟨found1, possible1⟩
            dsimp only
            rcases scanCandidates_struct net d tol cur _ _ _ _ _ hs with ⟨L, h1, h2, h3, h4⟩
            refine ih found1 possible1 ?_
            have hcard := card_step h3 (fun y hy => ⟨(h4 y hy).1, (h4 y hy).2.2.1⟩)
            rw [h1, h2]
            unfold travMeasure at h ⊢
            simp only [List.length_append, List.length_cons] at h ⊢
            omega

/-- The plain loop never raises provided every queued fid resolves to a
non-empty geometry (candidates accepted later always do, since they passed
the proximity test). -/
lemma travLoop_no_err (net : Network) (d : Direction) (tol : ℚ)
    (hN : (fidsOf net).Nodup) :
    ∀ (fuel : Nat) (found possible : List Fid),
    (∀ f ∈ possible, ∃ g, lookup net f = some g ∧ g ≠ []) →
    travLoop d tol net fuel found possible ≠ .err := by
  intro fuel
  induction fuel with
  | zero => intro found possible _; rw [travLoop]; simp
  | succ n ih =>
    intro found possible hp
    cases possible with
    | nil => rw [travLoop]; simp
    | cons fid rest =>
      rw [travLoop]
      rcases hp fid (List.mem_cons_self _ _) with ⟨g, hl, hg⟩
      rw [hl]
      dsimp only
      rcases leadCoord_isSome (d := d) hg with ⟨cur, hc⟩
      rw [hc]
      dsimp only
      cases hs : scanCandidates net d tol cur (potentialFids net cur tol) found rest with
      | none =>
        exact absurd hs (scanCandidates_ne_none net d tol cur _ _ _ (fun y hy _ => by
          rcases lookup_of_mem_potentialFids hN hy with ⟨gy, hly, hby⟩
          have h2 : 2 ≤ gy.length := two_le_length_of_box hby
          exact ⟨gy, hly, by intro h0; rw [h0] at h2; simp at h2⟩))
      | some r =>
        rcases r with ⟨found1, possible1⟩
        dsimp only
        rcases scanCandidates_struct net d tol cur _ _ _ _ _ hs with ⟨L, h1, h2, _, h4⟩
        refine ih found1 possible1 ?_
        intro f hf
        rw [h2] at hf
        rcases List.mem_append.1 hf with hf | hf
        · exact hp f (List.mem_cons_of_mem _ hf)
        · rcases (h4 f hf).2.2.2 with ⟨gf, ef, hlf, hff, _⟩
          exact ⟨gf, hlf, ne_nil_of_farCoord hff⟩

/-- Across a successful plain loop run the found list only grows (as a
prefix) and stays duplicate-free. -/
lemma travLoop_ok_struct (net : Network) (d : Direction) (tol : ℚ) :
    ∀ (fuel : Nat) (found possible found1 : List Fid),
    travLoop d tol net fuel found possible = .ok found1 →
    found <+: found1 ∧ (found.Nodup → ((∀ f ∈ possible, f ∈ found) → found1.Nodup)) := by
  intro fuel
  induction fuel with
  | zero => intro found possible found1 h; rw [travLoop] at h; simp at h
  | succ n ih =>
    intro found possible found1 h
    cases possible with
    | nil =>
      rw [travLoop] at h
      injection h with h
      subst h
      exact ⟨List.prefix_refl _, fun hnd _ => hnd⟩
    | cons fid rest =>
      rw [travLoop] at h
      cases hl : lookup net fid with
      | none => rw [hl] at h; simp at h
      | some g =>
        rw [hl] at h
        dsimp only at h
        cases hc : leadCoord d g with
        | none => rw [hc] at h; simp at h
        | some cur =>
          rw [hc] at h
          dsimp only at h
          cases hs : scanCandidates net d tol cur (potentialFids net cur tol) found rest with
          | none => rw [hs] at h; simp at h
          | some r =>
            rcases r with ⟨found2, possible2⟩
            rw [hs] at h
            dsimp only at h
            rcases scanCandidates_struct net d tol cur _ _ _ _ _ hs with ⟨L, h1, h2, h3, h4⟩
            rcases ih found2 possible2 found1 h with ⟨hpre, hnd⟩
            constructor
            · exact List.IsPrefix.trans (h1 ▸ List.prefix_append found L) hpre
            · intro hndf hsub
              refine hnd ?_ ?_
              · rw [h1]
                rw [List.nodup_append]
                exact ⟨hndf, h3, fun a ha hb => (h4 a hb).1 ha⟩
              · intro f hf
                rw [h2] at hf
                rw [h1]
                rcases List.mem_append.1 hf with hf | hf
                · exact List.mem_append.2 (Or.inl (hsub f (List.mem_cons_of_mem _ hf)))
                · exact List.mem_append.2 (Or.inr hf)


/-- Structure of one inner candidate loop of the blockage variant: found is
extended by a duplicate-free list of fresh network fids, the queue by a
sublist of those, and only newly found fids can have their stored geometry
changed. -/
lemma scanCandidatesB_struct (blk : List Point) (d : Direction) (tol : ℚ) (cur : Point) :
    ∀ (cands : List Fid) (net : Network) (found possible : List Fid)
      (net1 : Network) (found1 possible1 : List Fid),
    scanCandidatesB blk d tol cur cands net found possible = some (net1, found1, possible1) →
    ∃ L Lp, found1 = found ++ L ∧ possible1 = possible ++ Lp ∧ Lp.Sublist L ∧
      L.Nodup ∧ (∀ y ∈ L, y ∉ found ∧ y ∈ cands ∧ y ∈ fidsOf net) ∧
      fidsOf net1 = fidsOf net ∧
      (∀ f ∈ found, lookup net1 f = lookup net f) := by
  intro cands
  induction cands with
  | nil =>
    intro net found possible net1 found1 possible1 h
    rw [scanCandidatesB] at h
    injection h with h
    injection h with h1 h
    injection h with h2 h3
    exact ⟨[], [], by simp [← h2], by simp [← h3], List.Sublist.refl _, List.nodup_nil,
      by simp, by rw [← h1], by rw [← h1]; exact fun f _ => rfl⟩
  | cons fid rest ih =>
    intro net found possible net1 found1 possible1 h
    rw [scanCandidatesB] at h
    by_cases hmem : fid ∈ found
    · rw [if_pos hmem] at h
      rcases ih net found possible net1 found1 possible1 h with
        ⟨L, Lp, h1, h2, h3, h4, h5, h6, h7⟩
      exact ⟨L, Lp, h1, h2, h3, h4, fun y hy =>
        ⟨(h5 y hy).1, List.mem_cons_of_mem _ (h5 y hy).2.1, (h5 y hy).2.2⟩, h6, h7⟩
    · rw [if_neg hmem] at h
      cases hl : lookup net fid with
      | none => rw [hl] at h; simp at h
      | some g =>
        rw [hl] at h
        dsimp only at h
        cases hf : farCoord d g with
        | none => rw [hf] at h; simp at h
        | some e =>
          rw [hf] at h
          dsimp only at h
          by_cases hd : distLE cur e tol = true
          · rw [if_pos hd] at h
            cases hblk : blk.filter (fun b => withinBuffer1 b g) with
            | nil =>
              rw [hblk] at h
              dsimp only at h
              rcases ih net (found ++ [fid]) (possible ++ [fid]) net1 found1 possible1 h with
                ⟨L1, Lp1, h1, h2, h3, h4, h5, h6, h7⟩
              refine ⟨fid :: L1, fid :: Lp1, by simpa [List.append_assoc] using h1,
                by simpa [List.append_assoc] using h2, List.Sublist.cons₂ _ h3, ?_, ?_, h6, ?_⟩
              · rw [List.nodup_cons]
                exact ⟨fun hc => by simpa using (h5 fid hc).1, h4⟩
              · intro y hy
                rcases List.mem_cons.1 hy with hy | hy
                · subst hy
                  exact ⟨hmem, List.mem_cons_self _ _, mem_fids_of_lookup hl⟩
                · have h8 := h5 y hy
                  exact ⟨fun hc => h8.1 (by simp [hc]), List.mem_cons_of_mem _ h8.2.1, h8.2.2⟩
              · exact fun f hfm => h7 f (by simp [hfm])
            | cons b bs =>
              rw [hblk] at h
              dsimp only at h
              cases hls : lineString (g.take (minIndex (g.map (fun v => sqDist v b)))) with
              | none => rw [hls] at h; simp at h
              | some g1 =>
                rw [hls] at h
                dsimp only at h
                rcases ih (updateGeom net fid g1) (found ++ [fid]) possible net1 found1 possible1 h
                  with ⟨L1, Lp1, h1, h2, h3, h4, h5, h6, h7⟩
                refine ⟨fid :: L1, Lp1, by simpa [List.append_assoc] using h1, h2,
                  h3.trans (List.sublist_cons_self _ _), ?_, ?_, ?_, ?_⟩
                · rw [List.nodup_cons]
                  exact ⟨fun hc => by simpa using (h5 fid hc).1, h4⟩
                · intro y hy
                  rcases List.mem_cons.1 hy with hy | hy
                  · subst hy
                    exact ⟨hmem, List.mem_cons_self _ _, mem_fids_of_lookup hl⟩
                  · have h8 := h5 y hy
                    refine ⟨fun hc => h8.1 (by simp [hc]), List.mem_cons_of_mem _ h8.2.1, ?_⟩
                    have := h8.2.2
                    rwa [fidsOf_updateGeom] at this
                · rw [h6, fidsOf_updateGeom]
                · intro f hfm
                  have hne : f ≠ fid := fun hEq => hmem (hEq ▸ hfm)
                  rw [h7 f (by simp [hfm]), lookup_updateGeom_ne _ hne]
          · rw [if_neg hd] at h
            rcases ih net found possible net1 found1 possible1 h with
              ⟨L, Lp, h1, h2, h3, h4, h5, h6, h7⟩
            exact ⟨L, Lp, h1, h2, h3, h4, fun y hy =>
              ⟨(h5 y hy).1, List.mem_cons_of_mem _ (h5 y hy).2.1, (h5 y hy).2.2⟩, h6, h7⟩


/-- Semantic account of one inner candidate loop of the blockage variant,
relative to the original network `net₀`: provided the current store agrees
with `net₀` outside `found`, every newly found fid is a connected candidate
and is either accepted (enqueued, store untouched) or blocked (not enqueued,
store truncated at the nearest vertex to the first qualifying blockage);
moreover every connected candidate in the list ends up found. -/
lemma scanCandidatesB_sem (net₀ : Network) (blk : List Point) (d : Direction) (tol : ℚ)
    (cur : Point) :
    ∀ (cands : List Fid) (net : Network) (found possible : List Fid)
      (net1 : Network) (found1 possible1 : List Fid),
    scanCandidatesB blk d tol cur cands net found possible = some (net1, found1, possible1) →
    (∀ f, f ∉ found → lookup net f = lookup net₀ f) →
    (∀ f ∈ possible, f ∈ found) →
    (∀ f, f ∉ found1 → lookup net1 f = lookup net₀ f) ∧
    (∀ y, y ∉ found → y ∈ found1 →
      ∃ gy ey, lookup net₀ y = some gy ∧ farCoord d gy = some ey ∧ distLE cur ey tol = true ∧
        ((blk.filter (fun p => withinBuffer1 p gy) = [] ∧ y ∈ possible1 ∧
            lookup net1 y = lookup net₀ y) ∨
         (∃ b bs, blk.filter (fun p => withinBuffer1 p gy) = b :: bs ∧ y ∉ possible1 ∧
            lookup net1 y = some (gy.take (minIndex (gy.map (fun v => sqDist v b))))))) ∧
    (∀ y ∈ cands, (∃ gy ey, lookup net₀ y = some gy ∧ farCoord d gy = some ey ∧
        distLE cur ey tol = true) → y ∈ found1) := by
  intro cands
  induction cands with
  | nil =>
    intro net found possible net1 found1 possible1 h hagree hsub
    rw [scanCandidatesB] at h
    injection h with h
    injection h with h1 h
    injection h with h2 h3
    subst h1; subst h2; subst h3
    exact ⟨hagree, fun y hy1 hy2 => absurd hy2 hy1, by simp⟩
  | cons fid rest ih =>
    intro net found possible net1 found1 possible1 h hagree hsub
    rw [scanCandidatesB] at h
    by_cases hmem : fid ∈ found
    · rw [if_pos hmem] at h
      rcases ih net found possible net1 found1 possible1 h hagree hsub with ⟨i1, i2, i3⟩
      rcases scanCandidatesB_struct blk d tol cur _ _ _ _ _ _ _ h with
        ⟨L, Lp, hL, _, _, _, _, _, _⟩
      refine ⟨i1, i2, ?_⟩
      intro y hy hcond
      rcases List.mem_cons.1 hy with hy | hy
      · subst hy
        rw [hL]
        exact List.mem_append.2 (Or.inl hmem)
      · exact i3 y hy hcond
    · rw [if_neg hmem] at h
      have hl0 := hagree fid hmem
      cases hl : lookup net fid with
      | none => rw [hl] at h; simp at h
      | some g =>
        rw [hl] at h
        rw [hl] at hl0
        dsimp only at h
        cases hf : farCoord d g with
        | none => rw [hf] at h; simp at h
        | some e =>
          rw [hf] at h
          dsimp only at h
          by_cases hd : distLE cur e tol = true
          · rw [if_pos hd] at h
            cases hblk : blk.filter (fun p => withinBuffer1 p g) with
            | nil =>
              rw [hblk] at h
              dsimp only at h
              have hagree1 : ∀ f, f ∉ found ++ [fid] → lookup net f = lookup net₀ f := by
                intro f hfm
                exact hagree f (fun hc => hfm (by simp [hc]))
              have hsub1 : ∀ f ∈ possible ++ [fid], f ∈ found ++ [fid] := by
                intro f hfm
                rcases List.mem_append.1 hfm with hfm | hfm
                · exact List.mem_append.2 (Or.inl (hsub f hfm))
                · exact List.mem_append.2 (Or.inr hfm)
              rcases ih net (found ++ [fid]) (possible ++ [fid]) net1 found1 possible1 h
                hagree1 hsub1 with ⟨i1, i2, i3⟩
              rcases scanCandidatesB_struct blk d tol cur _ _ _ _ _ _ _ h with
                ⟨L, Lp, hL, hLp, _, _, _, _, hkeep⟩
              refine ⟨i1, ?_, ?_⟩
              · intro y hy hy1
                by_cases hyf : y = fid
                · subst hyf
                  refine ⟨g, e, hl0.symm, hf, hd, Or.inl ⟨hblk, ?_, ?_⟩⟩
                  · rw [hLp]
                    exact List.mem_append.2 (Or.inl (by simp))
                  · rw [hkeep y (by simp), hl]
                    exact hl0
                · exact i2 y (fun hc => (List.mem_append.1 hc).elim (fun hc1 => hy hc1)
                    (fun hc1 => hyf (by simpa using hc1))) hy1
              · intro y hy hcond
                rcases List.mem_cons.1 hy with hy | hy
                · subst hy
                  rw [hL]
                  exact List.mem_append.2 (Or.inl (by simp))
                · exact i3 y hy hcond
            | cons b bs =>
              rw [hblk] at h
              dsimp only at h
              cases hls : lineString (g.take (minIndex (g.map (fun v => sqDist v b)))) with
              | none => rw [hls] at h; simp at h
              | some g1 =>
                rw [hls] at h
                dsimp only at h
                have hg1 : g1 = g.take (minIndex (g.map (fun v => sqDist v b))) := by
                  by_cases hlen : (g.take (minIndex (g.map (fun v => sqDist v b)))).length = 1
                  · rw [lineString, if_pos hlen] at hls
                    exact absurd hls (by simp)
                  · rw [lineString, if_neg hlen] at hls
                    injection hls with hls
                    exact hls.symm
                have hagree1 : ∀ f, f ∉ found ++ [fid] →
                    lookup (updateGeom net fid g1) f = lookup net₀ f := by
                  intro f hfm
                  have hne : f ≠ fid := fun hc => hfm (by simp [hc])
                  rw [lookup_updateGeom_ne _ hne]
                  exact hagree f (fun hc => hfm (by simp [hc]))
                have hsub1 : ∀ f ∈ possible, f ∈ found ++ [fid] := by
                  intro f hfm
                  exact List.mem_append.2 (Or.inl (hsub f hfm))
                rcases ih (updateGeom net fid g1) (found ++ [fid]) possible net1 found1
                  possible1 h hagree1 hsub1 with ⟨i1, i2, i3⟩
                rcases scanCandidatesB_struct blk d tol cur _ _ _ _ _ _ _ h with
                  ⟨L, Lp, hL, hLp, hsl, _, hfresh, _, hkeep⟩
                refine ⟨i1, ?_, ?_⟩
                · intro y hy hy1
                  by_cases hyf : y = fid
                  · subst hyf
                    refine ⟨g, e, hl0.symm, hf, hd, Or.inr ⟨b, bs, hblk, ?_, ?_⟩⟩
                    · rw [hLp]
                      intro hc
                      rcases List.mem_append.1 hc with hc | hc
                      · exact hmem (hsub y hc)
                      · exact (hfresh y (hsl.subset hc)).1 (by simp)
                    · rw [hkeep y (by simp), lookup_updateGeom_self g1 hl, hg1]
                  · exact i2 y (fun hc => (List.mem_append.1 hc).elim hy
                      (fun hc1 => hyf (by simpa using hc1))) hy1
                · intro y hy hcond
                  rcases List.mem_cons.1 hy with hy | hy
                  · subst hy
                    rw [hL]
                    exact List.mem_append.2 (Or.inl (by simp))
                  · exact i3 y hy hcond
          · rw [if_neg hd] at h
            rcases ih net found possible net1 found1 possible1 h hagree hsub with ⟨i1, i2, i3⟩
            refine ⟨i1, i2, ?_⟩
            intro y hy hcond
            rcases List.mem_cons.1 hy with hy | hy
            · subst hy
              rcases hcond with ⟨gy, ey, hly, hfy, hdy⟩
              have hgg : g = gy := by
                have h9 := hl0.trans hly
                injection h9
              rw [← hgg] at hfy
              rw [hf] at hfy
              injection hfy with hfy
              rw [← hfy] at hdy
              exact absurd hdy hd
            · exact i3 y hy hcond


/-- The fueled blockage loop never exhausts fuel exceeding the measure. -/
lemma travLoopB_no_out (blk : List Point) (d : Direction) (tol : ℚ) :
    ∀ (fuel : Nat) (net : Network) (found possible : List Fid),
    travMeasure net found possible < fuel →
    travLoopB blk d tol fuel net found possible ≠ .out := by
  intro fuel
  induction fuel with
  | zero => intro net found possible h; omega
  | succ n ih =>
    intro net found possible h
    cases possible with
    | nil => rw [travLoopB]; simp
    | cons fid rest =>
      rw [travLoopB]
      cases hl : lookup net fid with
      | none => simp
      | some g =>
        dsimp only
        cases hc : leadCoord d g with
        | none => simp
        | some cur =>
          dsimp only
          cases hs : scanCandidatesB blk d tol cur (potentialFids net cur tol) net found rest with
          | none => simp
          | some r =>
            rcases r with ⟨net1, found1, possible1⟩
            dsimp only
            rcases scanCandidatesB_struct blk d tol cur _ _ _ _ _ _ _ hs with
              ⟨L, Lp, h1, h2, hsl, h3, h4, hfe, _⟩
            refine ih net1 found1 possible1 ?_
            have hcard := card_step h3 (fun y hy => ⟨(h4 y hy).1, (h4 y hy).2.2⟩)
            have hlen := hsl.length_le
            rw [h1, h2]
            unfold travMeasure at h ⊢
            rw [hfe]
            simp only [List.length_append, List.length_cons] at h ⊢
            omega

/-- The blockage-aware loop invariant is preserved to the end of a successful
run, along which the found list only grows. -/
lemma travLoopB_master (net₀ : Network) (blk : List Point) (d : Direction) (tol : ℚ)
    (base : List Fid) (hN : (fidsOf net₀).Nodup) :
    ∀ (fuel : Nat) (net : Network) (found possible : List Fid),
    InvB net₀ blk d tol base net found possible →
    ∀ (net1 : Network) (found1 : List Fid),
    travLoopB blk d tol fuel net found possible = .ok net1 found1 →
    InvB net₀ blk d tol base net1 found1 [] ∧ ∀ f ∈ found, f ∈ found1 := by
  intro fuel
  induction fuel with
  | zero => intro net found possible _ net1 found1 h; rw [travLoopB] at h; simp at h
  | succ n ih =>
    intro net found possible inv net1 found1 h
    cases possible with
    | nil =>
      rw [travLoopB] at h
      injection h with h1 h2
      subst h1; subst h2
      refine ⟨⟨by simp, inv.nd, inv.baseSub, inv.fidsEq, by simp, inv.agreeOut, by simp,
        inv.baseKeep, inv.selAll, by simp, inv.geomSt⟩, fun f hf => hf⟩
    | cons fid rest =>
      rw [travLoopB] at h
      cases hl : lookup net fid with
      | none => rw [hl] at h; simp at h
      | some g =>
        rw [hl] at h
        dsimp only at h
        cases hc : leadCoord d g with
        | none => rw [hc] at h; simp at h
        | some cur =>
          rw [hc] at h
          dsimp only at h
          cases hs : scanCandidatesB blk d tol cur (potentialFids net cur tol) net found rest with
          | none => rw [hs] at h; simp at h
          | some r =>
            rcases r with ⟨net2, found2, possible2⟩
            rw [hs] at h
            dsimp only at h
            have hl0 : lookup net₀ fid = some g := by
              rw [← inv.agreePos fid (List.mem_cons_self _ _)]
              exact hl
            have hexp : Explored net₀ blk d tol base fid :=
              inv.expPos fid (List.mem_cons_self _ _)
            have hsubrest : ∀ f ∈ rest, f ∈ found :=
              fun f hf => inv.sub f (List.mem_cons_of_mem _ hf)
            rcases scanCandidatesB_sem net₀ blk d tol cur _ _ _ _ _ _ _ hs
              inv.agreeOut hsubrest with ⟨i1, i2, i3⟩
            rcases scanCandidatesB_struct blk d tol cur _ _ _ _ _ _ _ hs with
              ⟨L, Lp, hL, hLp, hsl, hndL, hfresh, hfe, hkeep⟩
            have hNnet : (fidsOf net).Nodup := by rw [inv.fidsEq]; exact hN
            have hnbr : ∀ y ∈ L, Neighbor net₀ d tol fid y ∧
                (∃ gy ey, lookup net₀ y = some gy ∧ farCoord d gy = some ey ∧
                  distLE cur ey tol = true ∧
                  ((blk.filter (fun p => withinBuffer1 p gy) = [] ∧ y ∈ possible2 ∧
                      lookup net2 y = lookup net₀ y) ∨
                   (∃ b bs, blk.filter (fun p => withinBuffer1 p gy) = b :: bs ∧
                      y ∉ possible2 ∧
                      lookup net2 y =
                        some (gy.take (minIndex (gy.map (fun v => sqDist v b))))))) := by
              intro y hy
              have hyfr := hfresh y hy
              rcases i2 y hyfr.1 (by rw [hL]; exact List.mem_append.2 (Or.inr hy)) with
                ⟨gy, ey, hly, hfy, hdy, hdich⟩
              rcases lookup_of_mem_potentialFids hNnet hyfr.2.1 with ⟨gq, hlq, hbox⟩
              have hgq : gq = gy := by
                rw [inv.agreeOut y hyfr.1] at hlq
                rw [hlq] at hly
                injection hly
              rw [hgq] at hbox
              exact ⟨⟨g, cur, gy, ey, hl0, hc, hly, hbox, hfy, hdy⟩,
                ⟨gy, ey, hly, hfy, hdy, hdich⟩⟩
            have hnotblk : ∀ y gy, lookup net₀ y = some gy →
                blk.filter (fun p => withinBuffer1 p gy) = [] →
                ¬ Blocked net₀ blk y := by
              intro y gy hly hfil hb
              rcases hb with ⟨gb, hlb, hflb⟩
              rw [hly] at hlb
              injection hlb with hlb
              rw [← hlb] at hflb
              exact hflb hfil
            have inv2 : InvB net₀ blk d tol base net2 found2 possible2 := by
              refine ⟨?_, ?_, ?_, ?_, ?_, i1, ?_, ?_, ?_, ?_, ?_⟩
              · intro f hf
                rw [hLp] at hf
                rw [hL]
                rcases List.mem_append.1 hf with hf | hf
                · exact List.mem_append.2 (Or.inl (hsubrest f hf))
                · exact List.mem_append.2 (Or.inr (hsl.subset hf))
              · rw [hL, List.nodup_append]
                exact ⟨inv.nd, hndL, fun a ha hb => (hfresh a hb).1 ha⟩
              · intro f hf
                rw [hL]
                exact List.mem_append.2 (Or.inl (inv.baseSub f hf))
              · rw [hfe]; exact inv.fidsEq
              · intro f hf
                rw [hLp] at hf
                rcases List.mem_append.1 hf with hf | hf
                · exact inv.posFids f (List.mem_cons_of_mem _ hf)
                · rw [← inv.fidsEq]
                  exact (hfresh f (hsl.subset hf)).2.2
              · intro f hf
                rw [hLp] at hf
                rcases List.mem_append.1 hf with hf | hf
                · rw [hkeep f (hsubrest f hf)]
                  exact inv.agreePos f (List.mem_cons_of_mem _ hf)
                · have hfL := hsl.subset hf
                  rcases (hnbr f hfL).2 with ⟨gy, ey, hly, hfy, hdy, hdich⟩
                  rcases hdich with ⟨_, _, hlook⟩ | ⟨b, bs, _, hnp, _⟩
                  · exact hlook
                  · exact absurd (by rw [hLp]; exact List.mem_append.2 (Or.inr hf)) hnp
              · intro f hf
                rw [hkeep f (inv.baseSub f hf)]
                exact inv.baseKeep f hf
              · intro f hf
                rw [hL] at hf
                rcases List.mem_append.1 hf with hf | hf
                · exact inv.selAll f hf
                · rcases (hnbr f hf).2 with ⟨gy, ey, hly, hfy, hdy, hdich⟩
                  rcases hdich with ⟨hfil, _, _⟩ | ⟨b, bs, hfil, _, _⟩
                  · exact SelGrowth.ofExplored
                      (Explored.push hexp (hnbr f hf).1 (hnotblk f gy hly hfil))
                  · exact SelGrowth.stopped hexp (hnbr f hf).1
              · intro f hf
                rw [hLp] at hf
                rcases List.mem_append.1 hf with hf | hf
                · exact inv.expPos f (List.mem_cons_of_mem _ hf)
                · have hfL := hsl.subset hf
                  rcases (hnbr f hfL).2 with ⟨gy, ey, hly, hfy, hdy, hdich⟩
                  rcases hdich with ⟨hfil, _, _⟩ | ⟨b, bs, _, hnp, _⟩
                  · exact Explored.push hexp (hnbr f hfL).1 (hnotblk f gy hly hfil)
                  · exact absurd (by rw [hLp]; exact List.mem_append.2 (Or.inr hf)) hnp
              · intro f hf
                rw [hL] at hf
                rcases List.mem_append.1 hf with hf | hf
                · rcases inv.geomSt f hf with h1 | ⟨hnb, heq⟩ | ⟨gt, bt, bst, hlt, hft, hnt⟩
                  · exact Or.inl h1
                  · exact Or.inr (Or.inl ⟨hnb, by rw [hkeep f hf]; exact heq⟩)
                  · exact Or.inr (Or.inr ⟨gt, bt, bst, hlt, hft, by rw [hkeep f hf]; exact hnt⟩)
                · rcases (hnbr f hf).2 with ⟨gy, ey, hly, hfy, hdy, hdich⟩
                  rcases hdich with ⟨hfil, _, hlook⟩ | ⟨b, bs, hfil, _, hlook⟩
                  · exact Or.inr (Or.inl ⟨hnotblk f gy hly hfil, hlook⟩)
                  · exact Or.inr (Or.inr ⟨gy, b, bs, hly, hfil, hlook⟩)
            rcases ih net2 found2 possible2 inv2 net1 found1 h with ⟨hfin, hmono⟩
            refine ⟨hfin, fun f hf => hmono f ?_⟩
            rw [hL]
            exact List.mem_append.2 (Or.inl hf)

/-- The invariant holds at the seeded initial state. -/
lemma invB_init (net : Network) (blk : List Point) (d : Direction) (tol : ℚ)
    (start : Fid) (hN : (fidsOf net).Nodup) :
    InvB net blk d tol (seed net start) net (seed net start) (seed net start) := by
  refine ⟨fun f hf => hf, seed_nodup hN start, fun f hf => hf, rfl,
    fun f hf => (mem_seed hf).2, fun f _ => rfl, fun f _ => rfl, fun f _ => rfl,
    ?_, ?_, fun f hf => Or.inl hf⟩
  · exact fun f hf => SelGrowth.ofExplored (Explored.start hf)
  · exact fun f hf => Explored.start hf

lemma travMeasure_seed_lt (net : Network) (start : Fid) :
    travMeasure net (seed net start) (seed net start) < 2 * net.length + 1 := by
  have h1 : (seed net start).length ≤ net.length := seed_length_le net start
  have h2 : ((fidsOf net).toFinset \ (seed net start).toFinset).card ≤ net.length := by
    calc ((fidsOf net).toFinset \ (seed net start).toFinset).card
        ≤ (fidsOf net).toFinset.card := Finset.card_le_card (Finset.sdiff_subset)
      _ ≤ (fidsOf net).length := List.toFinset_card_le _
      _ = net.length := List.length_map _ _
  unfold travMeasure
  omega


/-- With an empty blockage collection the inner candidate loop of the
blockage variant coincides with the plain one and never touches the store. -/
lemma scanCandidatesB_nil_blk (d : Direction) (tol : ℚ) (cur : Point) :
    ∀ (cands : List Fid) (net : Network) (found possible : List Fid),
    scanCandidatesB [] d tol cur cands net found possible =
      (scanCandidates net d tol cur cands found possible).map (fun r => (net, r.1, r.2)) := by
  intro cands
  induction cands with
  | nil =>
    intro net found possible
    rw [scanCandidatesB, scanCandidates]
    rfl
  | cons fid rest ih =>
    intro net found possible
    rw [scanCandidatesB, scanCandidates]
    by_cases hmem : fid ∈ found
    · rw [if_pos hmem, if_pos hmem]
      exact ih net found possible
    · rw [if_neg hmem, if_neg hmem]
      cases hl : lookup net fid with
      | none => rfl
      | some g =>
        dsimp only
        cases hf : farCoord d g with
        | none => rfl
        | some e =>
          dsimp only
          by_cases hd : distLE cur e tol = true
          · rw [if_pos hd, if_pos hd]
            rw [List.filter_nil]
            exact ih net _ _
          · rw [if_neg hd, if_neg hd]
            exact ih net found possible

/-- With an empty blockage collection the blockage-aware loop coincides with
the plain loop and returns its input store unchanged. -/
lemma travLoopB_nil_blk (d : Direction) (tol : ℚ) :
    ∀ (fuel : Nat) (net : Network) (found possible : List Fid),
    travLoopB [] d tol fuel net found possible =
      match travLoop d tol net fuel found possible with
      | .ok f => .ok net f
      | .err => .err
      | .out => .out := by
  intro fuel
  induction fuel with
  | zero => intro net found possible; rw [travLoopB, travLoop]
  | succ n ih =>
    intro net found possible
    cases possible with
    | nil => rw [travLoopB, travLoop]
    | cons fid rest =>
      rw [travLoopB, travLoop]
      cases hl : lookup net fid with
      | none => rfl
      | some g =>
        dsimp only
        cases hc : leadCoord d g with
        | none => rfl
        | some cur =>
          dsimp only
          rw [scanCandidatesB_nil_blk]
          cases hs : scanCandidates net d tol cur (potentialFids net cur tol) found rest with
          | none => rfl
          | some r =>
            rcases r with ⟨found1, possible1⟩
            dsimp only [Option.map]
            exact ih net found1 possible1

lemma calcB_nil_blk (net : Network) (start : Fid) (d : Direction) (tol : ℚ) :
    calcWaterCourseLengthBlockage net [] start d tol =
      (calcWaterCourseLength net start d tol).map (fun sel => (net, sel)) := by
  rw [calcWaterCourseLengthBlockage, calcWaterCourseLength, travLoopB_nil_blk]
  cases travLoop d tol net (2 * net.length + 1) (seed net start) (seed net start) with
  | ok f => rfl
  | err => rfl
  | out => rfl


/-- The found list only grows along any blockage-aware loop run. -/
lemma travLoopB_found_mono (blk : List Point) (d : Direction) (tol : ℚ) :
    ∀ (fuel : Nat) (net : Network) (found possible : List Fid)
      (net1 : Network) (found1 : List Fid),
    travLoopB blk d tol fuel net found possible = .ok net1 found1 →
    ∀ f ∈ found, f ∈ found1 := by
  intro fuel
  induction fuel with
  | zero => intro net found possible net1 found1 h; rw [travLoopB] at h; simp at h
  | succ n ih =>
    intro net found possible net1 found1 h
    cases possible with
    | nil =>
      rw [travLoopB] at h
      injection h with h1 h2
      subst h2
      exact fun f hf => hf
    | cons fid rest =>
      rw [travLoopB] at h
      cases hl : lookup net fid with
      | none => rw [hl] at h; simp at h
      | some g =>
        rw [hl] at h
        dsimp only at h
        cases hc : leadCoord d g with
        | none => rw [hc] at h; simp at h
        | some cur =>
          rw [hc] at h
          dsimp only at h
          cases hs : scanCandidatesB blk d tol cur (potentialFids net cur tol) net found rest with
          | none => rw [hs] at h; simp at h
          | some r =>
            rcases r with ⟨net2, found2, possible2⟩
            rw [hs] at h
            dsimp only at h
            rcases scanCandidatesB_struct blk d tol cur _ _ _ _ _ _ _ hs with
              ⟨L, Lp, hL, _, _, _, _, _, _⟩
            intro f hf
            exact ih net2 found2 possible2 net1 found1 h f
              (by rw [hL]; exact List.mem_append.2 (Or.inl hf))

/-- C6: for every network, start id, direction and tolerance,
`calcWaterCourseLengthBlockage` called with an empty blockage collection
returns exactly the same selected rows (and hence the same total length) as
`calcWaterCourseLength` on the same inputs, and leaves the store unchanged. -/
theorem c6_empty_blockage_equivalence (net : Network) (start : Fid) (d : Direction)
    (tol : ℚ) :
    calcWaterCourseLengthBlockage net [] start d tol =
      (calcWaterCourseLength net start d tol).map (fun sel => (net, sel)) ∧
    (calcWaterCourseLengthBlockage net [] start d tol).map (fun r => r.2) =
      calcWaterCourseLength net start d tol ∧
    (calcWaterCourseLengthBlockage net [] start d tol).map (fun r => totalLength r.2) =
      (calcWaterCourseLength net start d tol).map totalLength := by
  refine ⟨calcB_nil_blk net start d tol, ?_, ?_⟩
  · rw [calcB_nil_blk]
    cases calcWaterCourseLength net start d tol <;> rfl
  · rw [calcB_nil_blk]
    cases calcWaterCourseLength net start d tol <;> rfl

/-- C8: for every network and starting id absent from the network, both
traversal functions return normally (no exception) with an empty selection
and total length 0; the blockage variant also leaves the store untouched. -/
theorem c8_unknown_start (net : Network) (blk : List Point) (start : Fid)
    (d : Direction) (tol : ℚ) (hs : start ∉ fidsOf net) :
    calcWaterCourseLength net start d tol = some [] ∧
    calcWaterCourseLengthBlockage net blk start d tol = some (net, []) ∧
    totalLength [] = 0 := by
  have hseed := seed_eq_nil hs
  refine ⟨?_, ?_, rfl⟩
  · rw [calcWaterCourseLength, hseed, travLoop]
    simp
  · rw [calcWaterCourseLengthBlockage, hseed, travLoopB]
    simp

theorem c8_unknown_start_witness :
    calcWaterCourseLength [(0, [((0:ℚ), (0:ℚ)), ((1:ℚ), (0:ℚ))])] 5 .upstream (1/10) =
      some [] ∧
    calcWaterCourseLengthBlockage [(0, [((0:ℚ), (0:ℚ)), ((1:ℚ), (0:ℚ))])] [] 5 .upstream
      (1/10) = some ([(0, [((0:ℚ), (0:ℚ)), ((1:ℚ), (0:ℚ))])], []) ∧
    totalLength [] = 0 :=
  c8_unknown_start [(0, [((0:ℚ), (0:ℚ)), ((1:ℚ), (0:ℚ))])] [] 5 .upstream (1/10)
    (by decide)

/-- C4: in both traversals every id appended to the work queue is
simultaneously appended to the found list (queue members are always found),
a found id is never removed and never duplicated, and with fuel
`2 * length + 1` the fueled rendering of the `while` loop never runs out,
i.e. the loop terminates on every finite network. -/
theorem c4_invariants_termination (net : Network) (blk : List Point) (d : Direction)
    (tol : ℚ) (start : Fid) :
    (∀ (cur : Point) (cands found possible found1 possible1 : List Fid),
      (∀ f ∈ possible, f ∈ found) → found.Nodup →
      scanCandidates net d tol cur cands found possible = some (found1, possible1) →
      (∀ f ∈ possible1, f ∈ found1) ∧ found1.Nodup ∧ found <+: found1) ∧
    (∀ (cur : Point) (cands : List Fid) (net0 : Network) (found possible : List Fid)
        (net1 : Network) (found1 possible1 : List Fid),
      (∀ f ∈ possible, f ∈ found) → found.Nodup →
      scanCandidatesB blk d tol cur cands net0 found possible = some (net1, found1, possible1) →
      (∀ f ∈ possible1, f ∈ found1) ∧ found1.Nodup ∧ found <+: found1) ∧
    travLoop d tol net (2 * net.length + 1) (seed net start) (seed net start) ≠ .out ∧
    travLoopB blk d tol (2 * net.length + 1) net (seed net start) (seed net start) ≠ .out := by
  refine ⟨?_, ?_, ?_, ?_⟩
  · intro cur cands found possible found1 possible1 hsub hnd hscan
    rcases scanCandidates_struct net d tol cur _ _ _ _ _ hscan with ⟨L, h1, h2, h3, h4⟩
    refine ⟨?_, ?_, h1 ▸ List.prefix_append found L⟩
    · intro f hf
      rw [h2] at hf
      rw [h1]
      rcases List.mem_append.1 hf with hf | hf
      · exact List.mem_append.2 (Or.inl (hsub f hf))
      · exact List.mem_append.2 (Or.inr hf)
    · rw [h1, List.nodup_append]
      exact ⟨hnd, h3, fun a ha hb => (h4 a hb).1 ha⟩
  · intro cur cands net0 found possible net1 found1 possible1 hsub hnd hscan
    rcases scanCandidatesB_struct blk d tol cur _ _ _ _ _ _ _ hscan with
      ⟨L, Lp, h1, h2, hsl, h3, h4, _, _⟩
    refine ⟨?_, ?_, h1 ▸ List.prefix_append found L⟩
    · intro f hf
      rw [h2] at hf
      rw [h1]
      rcases List.mem_append.1 hf with hf | hf
      · exact List.mem_append.2 (Or.inl (hsub f hf))
      · exact List.mem_append.2 (Or.inr (hsl.subset hf))
    · rw [h1, List.nodup_append]
      exact ⟨hnd, h3, fun a ha hb => (h4 a hb).1 ha⟩
  · exact travLoop_no_out net d tol _ _ _ (travMeasure_seed_lt net start)
  · exact travLoopB_no_out blk d tol _ net _ _ (travMeasure_seed_lt net start)

theorem c4_witness :
    ((∀ f ∈ ([0] : List Fid), f ∈ ([0] : List Fid)) ∧ ([0] : List Fid).Nodup ∧
      ([0] : List Fid) <+: [0]) ∧
    travLoop .upstream (1/10) [(0, [((0:ℚ), (0:ℚ)), ((1:ℚ), (0:ℚ))])]
      (2 * [(0, [((0:ℚ), (0:ℚ)), ((1:ℚ), (0:ℚ))])].length + 1)
      (seed [(0, [((0:ℚ), (0:ℚ)), ((1:ℚ), (0:ℚ))])] 0)
      (seed [(0, [((0:ℚ), (0:ℚ)), ((1:ℚ), (0:ℚ))])] 0) ≠ .out :=
  ⟨(c4_invariants_termination [(0, [((0:ℚ), (0:ℚ)), ((1:ℚ), (0:ℚ))])] [] .upstream
      (1/10) 0).1 ((0:ℚ), (0:ℚ)) [] [0] [0] [0] [0] (by decide) (by decide) rfl,
    (c4_invariants_termination [(0, [((0:ℚ), (0:ℚ)), ((1:ℚ), (0:ℚ))])] [] .upstream
      (1/10) 0).2.2.1⟩

/-- C3: the truncation step is safe only for an empty prefix.  When the
nearest vertex to the blockage has index 0 the truncation succeeds, stores an
empty geometry and contributes length 0; but when it has index 1 the source
builds a one-point `LineString`, which raises, so the whole call fails
instead of returning — the code contradicts the specified behaviour. -/
theorem c3_single_point_prefix_raises :
    calcWaterCourseLengthBlockage
      [(0, [((0:ℚ), (0:ℚ)), ((1:ℚ), (0:ℚ))]),
       (1, [((1:ℚ), (0:ℚ)), ((2:ℚ), (0:ℚ)), ((3:ℚ), (0:ℚ))])]
      [((2:ℚ), ((1:ℚ)/2))] 0 .downstream (1/10) = none ∧
    calcWaterCourseLengthBlockage
      [(0, [((0:ℚ), (0:ℚ)), ((1:ℚ), (0:ℚ))]),
       (1, [((1:ℚ), (0:ℚ)), ((2:ℚ), (0:ℚ)), ((3:ℚ), (0:ℚ))])]
      [((1:ℚ), ((1:ℚ)/2))] 0 .downstream (1/10) =
      some ([(0, [((0:ℚ), (0:ℚ)), ((1:ℚ), (0:ℚ))]), (1, [])],
        [(0, [((0:ℚ), (0:ℚ)), ((1:ℚ), (0:ℚ))]), (1, [])]) ∧
    polyLength [] = 0 := by
  refine ⟨?_, ?_, rfl⟩
  · norm_num [calcWaterCourseLengthBlockage, travLoopB, scanCandidatesB, seed, lookup,
      leadCoord, farCoord, potentialFids, geomIntersectsBox, segHitsBox, axisInterval,
      distLE, sqDist, withinBuffer1, sqDistPointSeg, minIndex, listMin, lineString,
      updateGeom, List.find?, List.indexOf_cons_ne, List.indexOf_cons_self, List.filter]
  · norm_num [calcWaterCourseLengthBlockage, travLoopB, scanCandidatesB, seed, lookup,
      leadCoord, farCoord, potentialFids, geomIntersectsBox, segHitsBox, axisInterval,
      distLE, sqDist, withinBuffer1, sqDistPointSeg, minIndex, listMin, lineString,
      updateGeom, List.find?, List.indexOf_cons_ne, List.indexOf_cons_self, List.filter]


/-- C5: a candidate returned by the proximity query (and not yet visited) is
accepted as connected — entering both the found list and the work queue — if
and only if the Euclidean distance between the current leading endpoint and
the candidate's far endpoint is at most `tolerance`; at distance exactly
`tolerance` it is included, at any greater distance it is discarded. -/
theorem c5_tolerance_acceptance (net : Network) (d : Direction) (tol : ℚ) (cur : Point)
    (fid : Fid) (rest found possible : List Fid) (g : Geom) (e : Point)
    (h0 : fid ∉ possible) (h1 : fid ∉ found) (h2 : fid ∉ rest)
    (h3 : lookup net fid = some g) (h4 : farCoord d g = some e) :
    ∀ (found1 possible1 : List Fid),
    scanCandidates net d tol cur (fid :: rest) found possible = some (found1, possible1) →
    (fid ∈ found1 ↔ rdist cur e ≤ (tol : ℝ)) ∧
    (fid ∈ possible1 ↔ rdist cur e ≤ (tol : ℝ)) := by
  intro found1 possible1 h
  rw [scanCandidates, if_neg h1, h3] at h
  dsimp only at h
  rw [h4] at h
  dsimp only at h
  by_cases hd : distLE cur e tol = true
  · rw [if_pos hd] at h
    rcases scanCandidates_struct net d tol cur _ _ _ _ _ h with ⟨L, hf1, hp1, _, _⟩
    have hr := (distLE_iff cur e tol).1 hd
    refine ⟨⟨fun _ => hr, fun _ => ?_⟩, ⟨fun _ => hr, fun _ => ?_⟩⟩
    · rw [hf1]
      exact List.mem_append.2 (Or.inl (by simp))
    · rw [hp1]
      exact List.mem_append.2 (Or.inl (by simp))
  · rw [if_neg hd] at h
    rcases scanCandidates_struct net d tol cur _ _ _ _ _ h with ⟨L, hf1, hp1, _, h4s⟩
    have hnr : ¬ rdist cur e ≤ (tol : ℝ) := fun hc => hd ((distLE_iff cur e tol).2 hc)
    have hnL : fid ∉ L := fun hc => h2 (h4s fid hc).2.1
    refine ⟨⟨fun hc => ?_, fun hc => absurd hc hnr⟩,
      ⟨fun hc => ?_, fun hc => absurd hc hnr⟩⟩
    · rw [hf1] at hc
      rcases List.mem_append.1 hc with hc | hc
      · exact absurd hc h1
      · exact absurd hc hnL
    · rw [hp1] at hc
      rcases List.mem_append.1 hc with hc | hc
      · exact absurd hc h0
      · exact absurd hc hnL

theorem c5_tolerance_acceptance_witness :
    (1 ∈ ([1] : List Fid) ↔ rdist ((0:ℚ), (0:ℚ)) ((0:ℚ), (0:ℚ)) ≤ ((1:ℚ) : ℝ)) ∧
    (1 ∈ ([1] : List Fid) ↔ rdist ((0:ℚ), (0:ℚ)) ((0:ℚ), (0:ℚ)) ≤ ((1:ℚ) : ℝ)) :=
  c5_tolerance_acceptance [(1, [((0:ℚ), (0:ℚ)), ((1:ℚ), (0:ℚ))])] .downstream 1
    ((0:ℚ), (0:ℚ)) 1 [] [] [] [((0:ℚ), (0:ℚ)), ((1:ℚ), (0:ℚ))] ((0:ℚ), (0:ℚ))
    (by decide) (by decide) (by decide) rfl rfl [1] [1]
    (by norm_num [scanCandidates, lookup, farCoord, distLE, sqDist, List.find?])

/-- C9 counterexample: a network whose starting segment has an empty geometry
makes the plain traversal raise (the leading-coordinate indexing fails), so
the claim's universal no-crash guarantee fails when the degenerate segment is
the start. -/
theorem c9_degenerate_start_counterexample :
    calcWaterCourseLength [(0, ([] : Geom))] 0 .upstream (1/10) = none := by
  rfl

/-- C9 (amended): degenerate geometries (fewer than two vertices) are
excluded from proximity matching and contribute zero length, and the plain
traversal completes without raising — provided the starting segment itself
does not have an empty geometry. -/
theorem c9_amended_degenerate_excluded (net : Network) (start : Fid) (d : Direction)
    (tol : ℚ) (hN : (fidsOf net).Nodup)
    (hstart : ∀ g, lookup net start = some g → g ≠ []) :
    (∃ sel, calcWaterCourseLength net start d tol = some sel) ∧
    (∀ f g c t, lookup net f = some g → g.length < 2 → f ∉ potentialFids net c t) ∧
    (∀ g, g.length < 2 → polyLength g = 0) := by
  refine ⟨?_, ?_, fun g hg => polyLength_short hg⟩
  · have hp : ∀ f ∈ seed net start, ∃ g, lookup net f = some g ∧ g ≠ [] := by
      intro f hf
      rcases mem_seed hf with ⟨hfs, hfm⟩
      subst hfs
      rcases lookup_isSome_of_mem hfm with ⟨g, hg⟩
      exact ⟨g, hg, hstart g hg⟩
    have hnoerr := travLoop_no_err net d tol hN (2 * net.length + 1)
      (seed net start) (seed net start) hp
    have hnout := travLoop_no_out net d tol (2 * net.length + 1) _ _
      (travMeasure_seed_lt net start)
    rw [calcWaterCourseLength]
    cases htr : travLoop d tol net (2 * net.length + 1) (seed net start) (seed net start) with
    | ok f => exact ⟨_, rfl⟩
    | err => exact absurd htr hnoerr
    | out => exact absurd htr hnout
  · intro f g c t hl hlen hmem1
    rcases lookup_of_mem_potentialFids hN hmem1 with ⟨g1, hl1, hbox⟩
    rw [hl] at hl1
    injection hl1 with hl1
    rw [← hl1] at hbox
    have := two_le_length_of_box hbox
    omega

theorem c9_amended_witness :
    (∃ sel, calcWaterCourseLength
      [(0, [((0:ℚ), (0:ℚ)), ((1:ℚ), (0:ℚ))]), (1, ([] : Geom))] 0 .upstream (1/10) =
        some sel) ∧
    polyLength [] = 0 :=
  ⟨(c9_amended_degenerate_excluded
      [(0, [((0:ℚ), (0:ℚ)), ((1:ℚ), (0:ℚ))]), (1, ([] : Geom))] 0 .upstream (1/10)
      (by decide)
      (fun g hg => by
        have h2 : some [((0:ℚ), (0:ℚ)), ((1:ℚ), (0:ℚ))] = some g := hg
        injection h2 with h2
        rw [← h2]
        simp)).1,
   (c9_amended_degenerate_excluded
      [(0, [((0:ℚ), (0:ℚ)), ((1:ℚ), (0:ℚ))]), (1, ([] : Geom))] 0 .upstream (1/10)
      (by decide)
      (fun g hg => by
        have h2 : some [((0:ℚ), (0:ℚ)), ((1:ℚ), (0:ℚ))] = some g := hg
        injection h2 with h2
        rw [← h2]
        simp)).2.2 [] (by simp)⟩


/-- C2: a connected candidate affected by a blockage is appended to the
found list but never to the work queue (the scan equation below shows the
queue passes through unchanged), and consequently every selected segment
lies in the reachability closure `SelGrowth` in which exploration never
proceeds from a blocked candidate — a segment connected to the start only
through a blocked candidate's far side is outside that closure and is never
selected. -/
theorem c2_blockage_not_enqueued (net : Network) (blk : List Point) (start : Fid)
    (d : Direction) (tol : ℚ) (hN : (fidsOf net).Nodup) :
    (∀ (cur : Point) (fid : Fid) (rest : List Fid) (net1 : Network)
        (found possible : List Fid) (g g1 : Geom) (e b : Point) (bs : List Point),
      fid ∉ found → lookup net1 fid = some g → farCoord d g = some e →
      distLE cur e tol = true →
      blk.filter (fun p => withinBuffer1 p g) = b :: bs →
      lineString (g.take (minIndex (g.map (fun v => sqDist v b)))) = some g1 →
      scanCandidatesB blk d tol cur (fid :: rest) net1 found possible =
        scanCandidatesB blk d tol cur rest (updateGeom net1 fid g1) (found ++ [fid]) possible) ∧
    (∀ (netF : Network) (sel : List (Fid × Geom)),
      calcWaterCourseLengthBlockage net blk start d tol = some (netF, sel) →
      ∀ e ∈ sel, SelGrowth net blk d tol (seed net start) e.1) := by
  constructor
  · intro cur fid rest net1 found possible g g1 e b bs hmem hl hf hd hblk hls
    rw [scanCandidatesB, if_neg hmem, hl]
    dsimp only
    rw [hf]
    dsimp only
    rw [if_pos hd, hblk]
    dsimp only
    rw [hls]
  · intro netF sel hrun
    rw [calcWaterCourseLengthBlockage] at hrun
    cases htr : travLoopB blk d tol (2 * net.length + 1) net (seed net start)
        (seed net start) with
    | err => rw [htr] at hrun; simp at hrun
    | out => rw [htr] at hrun; simp at hrun
    | ok net2 found2 =>
      rw [htr] at hrun
      dsimp only at hrun
      injection hrun with hrun
      have hsel : net2.filter (fun e => decide (e.1 ∈ found2)) = sel :=
        congrArg Prod.snd hrun
      rcases travLoopB_master net blk d tol (seed net start) hN _ net _ _
        (invB_init net blk d tol start hN) net2 found2 htr with ⟨hfin, _⟩
      intro e he
      rw [← hsel] at he
      have hef : e.1 ∈ found2 := by
        have hm := List.mem_filter.1 he
        simpa using hm.2
      exact hfin.selAll e.1 hef

theorem c2_blockage_not_enqueued_witness :
    scanCandidatesB [((1:ℚ), ((1:ℚ)/2))] .downstream (1/10) ((1:ℚ), (0:ℚ))
      [1] [(0, [((0:ℚ), (0:ℚ)), ((1:ℚ), (0:ℚ))]),
           (1, [((1:ℚ), (0:ℚ)), ((2:ℚ), (0:ℚ)), ((3:ℚ), (0:ℚ))])] [0] [] =
    scanCandidatesB [((1:ℚ), ((1:ℚ)/2))] .downstream (1/10) ((1:ℚ), (0:ℚ))
      []
      (updateGeom [(0, [((0:ℚ), (0:ℚ)), ((1:ℚ), (0:ℚ))]),
           (1, [((1:ℚ), (0:ℚ)), ((2:ℚ), (0:ℚ)), ((3:ℚ), (0:ℚ))])] 1 [])
      ([0] ++ [1]) [] :=
  (c2_blockage_not_enqueued
    [(0, [((0:ℚ), (0:ℚ)), ((1:ℚ), (0:ℚ))]),
     (1, [((1:ℚ), (0:ℚ)), ((2:ℚ), (0:ℚ)), ((3:ℚ), (0:ℚ))])]
    [((1:ℚ), ((1:ℚ)/2))] 0 .downstream (1/10) (by decide)).1
    ((1:ℚ), (0:ℚ)) 1 []
    [(0, [((0:ℚ), (0:ℚ)), ((1:ℚ), (0:ℚ))]),
     (1, [((1:ℚ), (0:ℚ)), ((2:ℚ), (0:ℚ)), ((3:ℚ), (0:ℚ))])]
    [0] [] [((1:ℚ), (0:ℚ)), ((2:ℚ), (0:ℚ)), ((3:ℚ), (0:ℚ))] []
    ((1:ℚ), (0:ℚ)) ((1:ℚ), ((1:ℚ)/2)) []
    (by decide) rfl rfl
    (by norm_num [distLE, sqDist])
    (by norm_num [withinBuffer1, sqDistPointSeg, sqDist])
    (by norm_num [minIndex, listMin, sqDist, lineString, List.indexOf_cons_self,
      List.indexOf_cons_eq])

/-- C7: the only way the blockage-aware traversal changes the shared store is
by overwriting blocked candidates with their truncated vertex lists: any fid
whose stored geometry differs after the call is a blocked, selected candidate
holding exactly the truncation described by `TruncState`; every other id's
stored geometry is unchanged. -/
theorem c7_only_mutation_is_truncation (net : Network) (blk : List Point) (start : Fid)
    (d : Direction) (tol : ℚ) (hN : (fidsOf net).Nodup) (netF : Network)
    (sel : List (Fid × Geom))
    (hrun : calcWaterCourseLengthBlockage net blk start d tol = some (netF, sel)) :
    ∀ f, lookup netF f ≠ lookup net f →
      Blocked net blk f ∧ TruncState net blk netF f ∧ f ∈ sel.map (fun e => e.1) := by
  rw [calcWaterCourseLengthBlockage] at hrun
  cases htr : travLoopB blk d tol (2 * net.length + 1) net (seed net start)
      (seed net start) with
  | err => rw [htr] at hrun; simp at hrun
  | out => rw [htr] at hrun; simp at hrun
  | ok net2 found2 =>
    rw [htr] at hrun
    dsimp only at hrun
    injection hrun with hrun
    have hnet : net2 = netF := congrArg Prod.fst hrun
    have hsel : net2.filter (fun e => decide (e.1 ∈ found2)) = sel :=
      congrArg Prod.snd hrun
    rcases travLoopB_master net blk d tol (seed net start) hN _ net _ _
      (invB_init net blk d tol start hN) net2 found2 htr with ⟨hfin, _⟩
    subst hnet
    intro f hdiff
    by_cases hmem : f ∈ found2
    · rcases hfin.geomSt f hmem with hb | ⟨_, heq⟩ | htc
      · exact absurd (hfin.baseKeep f hb) hdiff
      · exact absurd heq hdiff
      · have hblocked : Blocked net blk f := by
          rcases htc with ⟨g, b, bs, hlg, hfil, _⟩
          exact ⟨g, hlg, by rw [hfil]; simp⟩
        refine ⟨hblocked, htc, ?_⟩
        rw [← hsel, mem_selection_iff]
        refine ⟨?_, hmem⟩
        rw [hfin.fidsEq]
        rcases htc with ⟨g, _, _, hlg, _, _⟩
        exact mem_fids_of_lookup hlg
    · exact absurd (hfin.agreeOut f hmem) hdiff

theorem c7_only_mutation_is_truncation_witness :
    Blocked
      [(0, [((0:ℚ), (0:ℚ)), ((1:ℚ), (0:ℚ))]),
       (1, [((1:ℚ), (0:ℚ)), ((2:ℚ), (0:ℚ)), ((3:ℚ), (0:ℚ))])]
      [((1:ℚ), ((1:ℚ)/2))] 1 ∧
    TruncState
      [(0, [((0:ℚ), (0:ℚ)), ((1:ℚ), (0:ℚ))]),
       (1, [((1:ℚ), (0:ℚ)), ((2:ℚ), (0:ℚ)), ((3:ℚ), (0:ℚ))])]
      [((1:ℚ), ((1:ℚ)/2))]
      [(0, [((0:ℚ), (0:ℚ)), ((1:ℚ), (0:ℚ))]), (1, [])] 1 ∧
    1 ∈ ([(0, [((0:ℚ), (0:ℚ)), ((1:ℚ), (0:ℚ))]), (1, ([] : Geom))].map (fun e => e.1)) :=
  c7_only_mutation_is_truncation
    [(0, [((0:ℚ), (0:ℚ)), ((1:ℚ), (0:ℚ))]),
     (1, [((1:ℚ), (0:ℚ)), ((2:ℚ), (0:ℚ)), ((3:ℚ), (0:ℚ))])]
    [((1:ℚ), ((1:ℚ)/2))] 0 .downstream (1/10) (by decide)
    [(0, [((0:ℚ), (0:ℚ)), ((1:ℚ), (0:ℚ))]), (1, [])]
    [(0, [((0:ℚ), (0:ℚ)), ((1:ℚ), (0:ℚ))]), (1, [])]
    (by norm_num [calcWaterCourseLengthBlockage, travLoopB, scanCandidatesB, seed, lookup,
      leadCoord, farCoord, potentialFids, geomIntersectsBox, segHitsBox, axisInterval,
      distLE, sqDist, withinBuffer1, sqDistPointSeg, minIndex, listMin, lineString,
      updateGeom, List.find?, List.indexOf_cons_ne, List.indexOf_cons_self, List.filter])
    1 (by simp [lookup, List.find?])


lemma rdist_le_rdist {p q r s : Point} (h : sqDist p q ≤ sqDist r s) :
    rdist p q ≤ rdist r s :=
  Real.sqrt_le_sqrt (by exact_mod_cast h)

lemma rdist_lt_rdist {p q r s : Point} (h : sqDist p q < sqDist r s) :
    rdist p q < rdist r s :=
  Real.sqrt_lt_sqrt (by exact_mod_cast sqDist_nonneg p q) (by exact_mod_cast h)

/-- C1: in a successful blockage-aware run, every selected non-seed segment
affected by a blockage has its stored geometry replaced by exactly the prefix
of its original vertex list strictly before `minIndex` of the squared
distances to the first qualifying blockage point, and that index is precisely
the first index of minimum Euclidean distance to the blockage point (ties
broken by the lowest index). -/
theorem c1_truncation_at_first_nearest_vertex (net : Network) (blk : List Point)
    (start : Fid) (d : Direction) (tol : ℚ) (hN : (fidsOf net).Nodup)
    (netF : Network) (sel : List (Fid × Geom))
    (hrun : calcWaterCourseLengthBlockage net blk start d tol = some (netF, sel)) :
    ∀ f, f ∈ sel.map (fun e => e.1) → f ∉ seed net start → Blocked net blk f →
      ∃ g b bs, lookup net f = some g ∧
        blk.filter (fun p => withinBuffer1 p g) = b :: bs ∧
        lookup netF f = some (g.take (minIndex (g.map (fun v => sqDist v b)))) ∧
        ∃ hk : minIndex (g.map (fun v => sqDist v b)) < g.length,
          (∀ i, ∀ hi : i < g.length,
            rdist (g.get ⟨minIndex (g.map (fun v => sqDist v b)), hk⟩) b ≤
              rdist (g.get ⟨i, hi⟩) b) ∧
          (∀ i, ∀ hi : i < minIndex (g.map (fun v => sqDist v b)),
            rdist (g.get ⟨minIndex (g.map (fun v => sqDist v b)), hk⟩) b <
              rdist (g.get ⟨i, hi.trans hk⟩) b) := by
  rw [calcWaterCourseLengthBlockage] at hrun
  cases htr : travLoopB blk d tol (2 * net.length + 1) net (seed net start)
      (seed net start) with
  | err => rw [htr] at hrun; simp at hrun
  | out => rw [htr] at hrun; simp at hrun
  | ok net2 found2 =>
    rw [htr] at hrun
    dsimp only at hrun
    injection hrun with hrun
    have hnet : net2 = netF := congrArg Prod.fst hrun
    have hsel : net2.filter (fun e => decide (e.1 ∈ found2)) = sel :=
      congrArg Prod.snd hrun
    rcases travLoopB_master net blk d tol (seed net start) hN _ net _ _
      (invB_init net blk d tol start hN) net2 found2 htr with ⟨hfin, _⟩
    subst hnet
    intro f hfsel hfbase hfblk
    have hmem : f ∈ found2 := by
      rw [← hsel] at hfsel
      exact (mem_selection_iff.1 hfsel).2
    rcases hfin.geomSt f hmem with hb | ⟨hnb, _⟩ | htc
    · exact absurd hb hfbase
    · exact absurd hfblk hnb
    · rcases htc with ⟨g, b, bs, hlg, hfil, hlk⟩
      refine ⟨g, b, bs, hlg, hfil, hlk, ?_⟩
      have hbin : withinBuffer1 b g = true := by
        have hbmem : b ∈ blk.filter (fun p => withinBuffer1 p g) := by
          rw [hfil]
          exact List.mem_cons_self _ _
        exact (List.mem_filter.1 hbmem).2
      have hglen : 2 ≤ g.length := two_le_length_of_withinBuffer hbin
      have hne : g.map (fun v => sqDist v b) ≠ [] := by
        intro hc
        have h6 : g.length = 0 := by
          have h7 := congrArg List.length hc
          rw [List.length_map] at h7
          simpa using h7
        omega
      rcases minIndex_spec hne with ⟨hk0, hmin, hstrict⟩
      have hk : minIndex (g.map (fun v => sqDist v b)) < g.length := by
        rwa [List.length_map] at hk0
      have hget : ∀ i, ∀ hi : i < g.length,
          (g.map (fun v => sqDist v b)).get
              ⟨i, by rw [List.length_map]; exact hi⟩ =
            sqDist (g.get ⟨i, hi⟩) b := by
        intro i hi
        simp [List.get_eq_getElem, List.getElem_map]
      refine ⟨hk, ?_, ?_⟩
      · intro i hi
        refine rdist_le_rdist ?_
        have h5 := hmin i (by rw [List.length_map]; exact hi)
        rwa [hget _ hk, hget i hi] at h5
      · intro i hi
        refine rdist_lt_rdist ?_
        have h5 := hstrict i hi
        rwa [hget _ hk, hget i (hi.trans hk)] at h5

theorem c1_truncation_at_first_nearest_vertex_witness :
    ∃ g b bs,
      lookup [(0, [((0:ℚ), (0:ℚ)), ((1:ℚ), (0:ℚ))]),
        (1, [((1:ℚ), (0:ℚ)), ((2:ℚ), (0:ℚ)), ((3:ℚ), (0:ℚ))])] 1 = some g ∧
      List.filter (fun p => withinBuffer1 p g) [((1:ℚ), ((1:ℚ)/2))] = b :: bs ∧
      lookup [(0, [((0:ℚ), (0:ℚ)), ((1:ℚ), (0:ℚ))]), (1, [])] 1 =
        some (g.take (minIndex (g.map (fun v => sqDist v b)))) ∧
      ∃ hk : minIndex (g.map (fun v => sqDist v b)) < g.length,
        (∀ i, ∀ hi : i < g.length,
          rdist (g.get ⟨minIndex (g.map (fun v => sqDist v b)), hk⟩) b ≤
            rdist (g.get ⟨i, hi⟩) b) ∧
        (∀ i, ∀ hi : i < minIndex (g.map (fun v => sqDist v b)),
          rdist (g.get ⟨minIndex (g.map (fun v => sqDist v b)), hk⟩) b <
            rdist (g.get ⟨i, hi.trans hk⟩) b) :=
  c1_truncation_at_first_nearest_vertex
    [(0, [((0:ℚ), (0:ℚ)), ((1:ℚ), (0:ℚ))]),
     (1, [((1:ℚ), (0:ℚ)), ((2:ℚ), (0:ℚ)), ((3:ℚ), (0:ℚ))])]
    [((1:ℚ), ((1:ℚ)/2))] 0 .downstream (1/10) (by decide)
    [(0, [((0:ℚ), (0:ℚ)), ((1:ℚ), (0:ℚ))]), (1, [])]
    [(0, [((0:ℚ), (0:ℚ)), ((1:ℚ), (0:ℚ))]), (1, [])]
    (by norm_num [calcWaterCourseLengthBlockage, travLoopB, scanCandidatesB, seed, lookup,
      leadCoord, farCoord, potentialFids, geomIntersectsBox, segHitsBox, axisInterval,
      distLE, sqDist, withinBuffer1, sqDistPointSeg, minIndex, listMin, lineString,
      updateGeom, List.find?, List.indexOf_cons_ne, List.indexOf_cons_self, List.filter])
    1 (by decide) (by decide)
    ⟨[((1:ℚ), (0:ℚ)), ((2:ℚ), (0:ℚ)), ((3:ℚ), (0:ℚ))], rfl,
      by norm_num [withinBuffer1, sqDistPointSeg, sqDist]⟩


/-- C10: blockage resolution applies only to candidate neighbors, never to
the starting segment: in every successful blockage-aware run whose start id
is present, the start keeps its original, untruncated stored geometry and
appears with it in the selection, and every connected neighbor of the start
is explored (ends up selected) — even when a blockage lies within the buffer
of the starting segment's own geometry. -/
theorem c10_start_never_truncated (net : Network) (blk : List Point) (start : Fid)
    (d : Direction) (tol : ℚ) (hN : (fidsOf net).Nodup) (hmem : start ∈ fidsOf net)
    (netF : Network) (sel : List (Fid × Geom))
    (hrun : calcWaterCourseLengthBlockage net blk start d tol = some (netF, sel)) :
    (∃ g, lookup net start = some g ∧ lookup netF start = some g ∧ (start, g) ∈ sel) ∧
    (∀ y, Neighbor net d tol start y → y ∈ sel.map (fun e => e.1)) := by
  have hseed : seed net start = [start] := seed_eq_single hN hmem
  rw [calcWaterCourseLengthBlockage] at hrun
  cases htr : travLoopB blk d tol (2 * net.length + 1) net (seed net start)
      (seed net start) with
  | err => rw [htr] at hrun; simp at hrun
  | out => rw [htr] at hrun; simp at hrun
  | ok net2 found2 =>
    rw [htr] at hrun
    dsimp only at hrun
    injection hrun with hrun
    have hnet : net2 = netF := congrArg Prod.fst hrun
    have hsel : net2.filter (fun e => decide (e.1 ∈ found2)) = sel :=
      congrArg Prod.snd hrun
    rcases travLoopB_master net blk d tol (seed net start) hN _ net _ _
      (invB_init net blk d tol start hN) net2 found2 htr with ⟨hfin, hmono⟩
    rcases lookup_isSome_of_mem hmem with ⟨g0, hl0⟩
    have hstartf : start ∈ found2 := hmono start (mem_seed_self hmem)
    have hkeep : lookup net2 start = some g0 := by
      rw [hfin.baseKeep start (mem_seed_self hmem)]
      exact hl0
    subst hnet
    constructor
    · refine ⟨g0, hl0, hkeep, ?_⟩
      rw [← hsel]
      exact row_mem_selection hkeep hstartf
    · intro y hnbr
      rcases hnbr with ⟨gx, cur, gy, ey, hlx, hcx, hly, hbox, hfy, hdy⟩
      rw [hseed] at htr
      rw [travLoopB] at htr
      rw [hlx] at htr
      dsimp only at htr
      rw [hcx] at htr
      dsimp only at htr
      cases hsc : scanCandidatesB blk d tol cur (potentialFids net cur tol) net
          [start] [] with
      | none => rw [hsc] at htr; simp at htr
      | some r =>
        rcases r with ⟨net3, found3, possible3⟩
        rw [hsc] at htr
        dsimp only at htr
        have hagree0 : ∀ f, f ∉ ([start] : List Fid) → lookup net f = lookup net f :=
          fun _ _ => rfl
        have hsub0 : ∀ f ∈ ([] : List Fid), f ∈ ([start] : List Fid) := by simp
        rcases scanCandidatesB_sem net blk d tol cur _ _ _ _ _ _ _ hsc hagree0 hsub0 with
          ⟨_, _, i3⟩
        have hycand : y ∈ potentialFids net cur tol :=
          mem_potentialFids_of_lookup hly hbox
        have hyf3 : y ∈ found3 := i3 y hycand ⟨gy, ey, hly, hfy, hdy⟩
        have hyf2 : y ∈ found2 :=
          travLoopB_found_mono blk d tol _ net3 found3 possible3 net2 found2 htr y hyf3
        rw [← hsel, mem_selection_iff]
        refine ⟨?_, hyf2⟩
        rw [hfin.fidsEq]
        exact mem_fids_of_lookup hly

theorem c10_start_never_truncated_witness :
    (∃ g, lookup [(0, [((0:ℚ), (0:ℚ)), ((1:ℚ), (0:ℚ))]),
        (1, [((1:ℚ), (0:ℚ)), ((2:ℚ), (0:ℚ)), ((3:ℚ), (0:ℚ))])] 0 = some g ∧
      lookup [(0, [((0:ℚ), (0:ℚ)), ((1:ℚ), (0:ℚ))]), (1, [])] 0 = some g ∧
      (0, g) ∈ [(0, [((0:ℚ), (0:ℚ)), ((1:ℚ), (0:ℚ))]), (1, ([] : Geom))]) ∧
    1 ∈ ([(0, [((0:ℚ), (0:ℚ)), ((1:ℚ), (0:ℚ))]), (1, ([] : Geom))].map (fun e => e.1)) := by
  have h := c10_start_never_truncated
    [(0, [((0:ℚ), (0:ℚ)), ((1:ℚ), (0:ℚ))]),
     (1, [((1:ℚ), (0:ℚ)), ((2:ℚ), (0:ℚ)), ((3:ℚ), (0:ℚ))])]
    [((1:ℚ), ((1:ℚ)/2))] 0 .downstream (1/10) (by decide) (by decide)
    [(0, [((0:ℚ), (0:ℚ)), ((1:ℚ), (0:ℚ))]), (1, [])]
    [(0, [((0:ℚ), (0:ℚ)), ((1:ℚ), (0:ℚ))]), (1, [])]
    (by norm_num [calcWaterCourseLengthBlockage, travLoopB, scanCandidatesB, seed, lookup,
      leadCoord, farCoord, potentialFids, geomIntersectsBox, segHitsBox, axisInterval,
      distLE, sqDist, withinBuffer1, sqDistPointSeg, minIndex, listMin, lineString,
      updateGeom, List.find?, List.indexOf_cons_ne, List.indexOf_cons_self, List.filter])
  refine ⟨h.1, h.2 1 ?_⟩
  refine ⟨[((0:ℚ), (0:ℚ)), ((1:ℚ), (0:ℚ))], ((1:ℚ), (0:ℚ)),
    [((1:ℚ), (0:ℚ)), ((2:ℚ), (0:ℚ)), ((3:ℚ), (0:ℚ))], ((1:ℚ), (0:ℚ)),
    rfl, ?_, rfl, ?_, rfl, ?_⟩
  · norm_num [leadCoord, List.getLast?]
  · norm_num [geomIntersectsBox, segHitsBox, axisInterval]
  · norm_num [distLE, sqDist]


end Watercourse
